import Mathlib

/-!
Verification of the PlainFileRepo storage primitives: a shallow embedding of
the copy-on-write trie (src/CPP/copy_on_write_trie/trie.cpp), the LRU-K
replacer (src/unnamed/part_001) and the buffer pool manager
(src/CPP/buffer_pool_manager/buffer_pool_manager.cpp), together with proofs
and refutations of the specified properties.

Conventions of the embedding:
* C++ `std::map` / `std::unordered_map` objects become association lists with
  `mapFind` (find/at), `mapSet` (operator[] assignment: update the existing
  entry in place, otherwise append) and `mapErase` (erase).
* A `std::shared_ptr` that may be null becomes an `Option`.
* Operations whose C++ code can dereference a null pointer (or read an
  uninitialized variable) are total functions returning `Option`/a result
  type, where `none` (or `RemRes.ub`) marks exactly the executions that are
  undefined behaviour in the source.
-/

namespace PlainFileRepo

section AssocMap

variable {κ β : Type} [DecidableEq κ]

/-- Lookup in an association list, mirroring `std::map::find` / `at`. -/
def mapFind : List (κ × β) → κ → Option β
  | [], _ => none
  | (k', v) :: r, k => if k' = k then some v else mapFind r k

/-- Assignment through `operator[]`: replace the entry if the key is present,
otherwise append a new entry. -/
def mapSet : List (κ × β) → κ → β → List (κ × β)
  | [], k, v => [(k, v)]
  | (k', v') :: r, k, v => if k' = k then (k, v) :: r else (k', v') :: mapSet r k v

/-- `std::map::erase` by key. -/
def mapErase : List (κ × β) → κ → List (κ × β)
  | [], _ => []
  | (k', v') :: r, k => if k' = k then r else (k', v') :: mapErase r k

theorem mapFind_set_self (m : List (κ × β)) (k : κ) (v : β) :
    mapFind (mapSet m k v) k = some v := by
  induction m with
  | nil => simp [mapFind, mapSet]
  | cons p r ih =>
    obtain ⟨k', v'⟩ := p
    by_cases h : k' = k <;> simp [mapFind, mapSet, h, ih]

theorem mapFind_set_ne (m : List (κ × β)) (k k' : κ) (v : β) (h : k' ≠ k) :
    mapFind (mapSet m k v) k' = mapFind m k' := by
  induction m with
  | nil => simp [mapFind, mapSet, Ne.symm h]
  | cons p r ih =>
    obtain ⟨k₀, v₀⟩ := p
    by_cases h₀ : k₀ = k
    · subst h₀
      simp [mapFind, mapSet, Ne.symm h]
    · simp only [mapFind, mapSet, if_neg h₀]
      by_cases h₁ : k₀ = k' <;> simp [mapFind, h₁, ih]

theorem mapFind_eq_none_of_forall (m : List (κ × β)) (k : κ)
    (h : ∀ p ∈ m, p.1 ≠ k) : mapFind m k = none := by
  induction m with
  | nil => rfl
  | cons p r ih =>
    obtain ⟨k', v'⟩ := p
    have hk : k' ≠ k := h (k', v') (by simp)
    simp only [mapFind, if_neg hk]
    exact ih fun q hq => h q (by simp [hq])

theorem mapSet_append_of_forall (m : List (κ × β)) (k : κ) (v : β)
    (h : ∀ p ∈ m, p.1 ≠ k) : mapSet m k v = m ++ [(k, v)] := by
  induction m with
  | nil => rfl
  | cons p r ih =>
    obtain ⟨k', v'⟩ := p
    have hk : k' ≠ k := h (k', v') (by simp)
    simp only [mapSet, if_neg hk, List.cons_append, List.cons.injEq, true_and]
    exact ih fun q hq => h q (by simp [hq])

theorem mapFind_mem (m : List (κ × β)) (k : κ) (v : β)
    (h : mapFind m k = some v) : (k, v) ∈ m := by
  induction m with
  | nil => simp [mapFind] at h
  | cons p r ih =>
    obtain ⟨k', v'⟩ := p
    by_cases hk : k' = k
    · subst hk
      simp [mapFind] at h
      simp [h]
    · simp only [mapFind, if_neg hk] at h
      exact List.mem_cons_of_mem _ (ih h)

theorem mapErase_of_forall (m : List (κ × β)) (k : κ)
    (h : ∀ p ∈ m, p.1 ≠ k) : mapErase m k = m := by
  induction m with
  | nil => rfl
  | cons p r ih =>
    obtain ⟨k', v'⟩ := p
    have hk : k' ≠ k := h (k', v') (by simp)
    simp only [mapErase, if_neg hk, List.cons.injEq, true_and]
    exact ih fun q hq => h q (by simp [hq])

end AssocMap

/-! ## Copy-on-write trie (src/CPP/copy_on_write_trie/trie.cpp)

A `TrieNode` bundles the `children_` map (`char` to a possibly-null shared
pointer to a child) with `value_`.  `value_ = none` is the plain interior
`TrieNode` (`is_value_node_ = false`); `value_ = some v` is
`TrieNodeWithValue<T>` (`is_value_node_ = true`, always carrying a non-null
value, spec invariant 8).  The embedding fixes one value type `α`,
corresponding to one template instantiation `T`.

Modelled from the spec: trie.h is not among the sources.  Per spec section
4.4, `TrieNode::Clone` returns a shallow copy sharing the children map and
`TrieNodeWithValue<T>::Clone` additionally shares the value pointer, so a
clone of a value node is again a value node with identical children and
value.  In this pure embedding `Clone` is therefore the identity on the node
value, and the code below inlines it. -/

inductive TrieNode (α : Type) : Type where
  | mk (children : List (Char × Option (TrieNode α))) (value : Option α)

/-- The `children_` field. -/
def TrieNode.children_ {α : Type} : TrieNode α → List (Char × Option (TrieNode α))
  | .mk cs _ => cs

/-- The `value_` field; `isSome` is the `is_value_node_` flag. -/
def TrieNode.value_ {α : Type} : TrieNode α → Option α
  | .mk _ v => v

/-- A `Trie` is its `root_`: a possibly-null shared pointer to a node. -/
abbrev Trie (α : Type) := Option (TrieNode α)

/-- The traversal loop of `Trie::Get` (trie.cpp lines 9-57): walk the key one
character at a time, returning null when a link is missing or null, and the
value of the final node (null for an interior node) at the end. -/
def getLoop {α : Type} : Trie α → List Char → Option α
  | none, _ => none
  | some n, [] => n.value_
  | some n, c :: rest =>
    match mapFind n.children_ c with
    | none => none
    | some child => getLoop child rest

/-- `Trie::Get<T>` (trie.cpp lines 9-57). -/
def Trie.Get {α : Type} (t : Trie α) (key : List Char) : Option α :=
  getLoop t key

/-- The loop of `Trie::Put` (trie.cpp lines 84-137) run on an already cloned
node; `none` is the undefined behaviour of calling `Clone` through a null
child pointer (line 131). -/
def putLoop {α : Type} (v : α) : TrieNode α → List Char → Option (TrieNode α)
  | curr, [] => some curr
  | curr, [c] =>
    match mapFind curr.children_ c with
    | none =>
      -- line 100: no entry at the last character: fresh value node
      some (TrieNode.mk (mapSet curr.children_ c
        (some (TrieNode.mk [] (some v)))) curr.value_)
    | some none =>
      -- line 121: a null entry at the last character: fresh value node
      some (TrieNode.mk (mapSet curr.children_ c
        (some (TrieNode.mk [] (some v)))) curr.value_)
    | some (some child) =>
      -- line 117: value node inheriting the existing child's children
      some (TrieNode.mk (mapSet curr.children_ c
        (some (TrieNode.mk child.children_ (some v)))) curr.value_)
  | curr, c :: c₂ :: rest =>
    match mapFind curr.children_ c with
    | none =>
      -- line 88: create a fresh interior node and continue below it
      (putLoop v (TrieNode.mk [] none) (c₂ :: rest)).map fun sub =>
        TrieNode.mk (mapSet curr.children_ c (some sub)) curr.value_
    | some none => none  -- line 131: Clone of a null child
    | some (some child) =>
      -- line 131: clone the child and continue below the clone
      (putLoop v child (c₂ :: rest)).map fun sub =>
        TrieNode.mk (mapSet curr.children_ c (some sub)) curr.value_

/-- `Trie::Put<T>` (trie.cpp lines 59-140).  `none` marks undefined
behaviour: on an empty key line 72 reads `root_->children_` even when
`root_` is null (the fresh `new_root` prepared on line 67 is ignored). -/
def Trie.Put {α : Type} (t : Trie α) (key : List Char) (v : α) : Option (Trie α) :=
  match key with
  | [] =>
    match t with
    | none => none
    | some root => some (some (TrieNode.mk root.children_ (some v)))
  | c :: rest =>
    let new_root : TrieNode α :=
      match t with
      | none => TrieNode.mk [] none
      | some root => root
    match putLoop v new_root (c :: rest) with
    | none => none
    | some n => some (some n)

/-- Result of the `Trie::Remove` loop: undefined behaviour, key not found
(the function returns the original trie), or a replacement subtree. -/
inductive RemRes (α : Type) : Type where
  | ub : RemRes α
  | notFound : RemRes α
  | changed (n : TrieNode α) : RemRes α

/-- Reconnecting a parent with the outcome of removal below it (line 189);
undefined behaviour and a not-found result abort the whole walk. -/
def removeStep {α : Type} (curr : TrieNode α) (c : Char) : RemRes α → RemRes α
  | RemRes.ub => RemRes.ub
  | RemRes.notFound => RemRes.notFound
  | RemRes.changed sub =>
    RemRes.changed (TrieNode.mk (mapSet curr.children_ c (some sub)) curr.value_)

/-- The loop of `Trie::Remove` (trie.cpp lines 157-191) on the cloned root.
`ub` is the null dereference of line 166, where the child is cloned before
any null check. -/
def removeLoop {α : Type} : TrieNode α → List Char → RemRes α
  | _, [] => RemRes.notFound
  | curr, [c] =>
    match mapFind curr.children_ c with
    | none => RemRes.notFound  -- line 160
    | some none => RemRes.ub   -- line 166: Clone of a null child
    | some (some child) =>
      if child.value_.isSome then
        if child.children_.isEmpty then
          -- line 179: detach by storing an explicit null pointer
          RemRes.changed (TrieNode.mk (mapSet curr.children_ c none) curr.value_)
        else
          -- line 184: strip the value, keep the children
          RemRes.changed (TrieNode.mk (mapSet curr.children_ c
            (some (TrieNode.mk child.children_ none))) curr.value_)
      else RemRes.notFound     -- line 171
  | curr, c :: c₂ :: rest =>
    match mapFind curr.children_ c with
    | none => RemRes.notFound
    | some none => RemRes.ub
    | some (some child) => removeStep curr c (removeLoop child (c₂ :: rest))

/-- `Trie::Remove` (trie.cpp lines 142-194).  `none` marks undefined
behaviour: with an empty key, line 146 evaluates `root_->is_value_node_`
before the null check on `root_`.  With an empty key and a value root, line
150 clones the root; since `TrieNodeWithValue<T>::Clone` keeps the value,
the returned root is unchanged (both branches of the `if` below agree). -/
def Trie.Remove {α : Type} (t : Trie α) (key : List Char) : Option (Trie α) :=
  match key with
  | [] =>
    match t with
    | none => none
    | some root =>
      if root.value_.isSome then
        some (some root)  -- line 150: Clone, which preserves the value
      else
        some (some root)  -- line 147: return *this
  | c :: rest =>
    match t with
    | none => some none   -- line 146: return *this on a null root
    | some root =>
      match removeLoop root (c :: rest) with
      | RemRes.ub => none
      | RemRes.notFound => some (some root)  -- lines 163, 172: return *this
      | RemRes.changed n => some (some n)

/-- Does walking `key` in the trie end exactly at an explicit null child
pointer (the slot written by line 179 of `Trie::Remove`)? -/
def pathEndsNull {α : Type} : TrieNode α → List Char → Bool
  | _, [] => false
  | n, [c] =>
    match mapFind n.children_ c with
    | some none => true
    | _ => false
  | n, c :: c₂ :: rest =>
    match mapFind n.children_ c with
    | some (some child) => pathEndsNull child (c₂ :: rest)
    | _ => false

/-- Option-level version of `pathEndsNull`. -/
def Trie.hasNullSlot {α : Type} (t : Trie α) (key : List Char) : Bool :=
  match t with
  | none => false
  | some root => pathEndsNull root key

@[simp] theorem TrieNode.children_mk {α : Type}
    (cs : List (Char × Option (TrieNode α))) (v : Option α) :
    (TrieNode.mk cs v).children_ = cs := rfl

@[simp] theorem TrieNode.value_mk {α : Type}
    (cs : List (Char × Option (TrieNode α))) (v : Option α) :
    (TrieNode.mk cs v).value_ = v := rfl

theorem getLoop_none {α : Type} (key : List Char) :
    getLoop (none : Trie α) key = none := by
  cases key <;> rfl

theorem getLoop_fresh {α : Type} (key : List Char) :
    getLoop (some (TrieNode.mk [] none) : Trie α) key = none := by
  cases key <;> simp [getLoop, mapFind]

/-- For a non-empty key, `getLoop` inspects only the children of the first
node, never its value. -/
theorem getLoop_value_irrel {α : Type} (cs : List (Char × Option (TrieNode α)))
    (v₁ v₂ : Option α) (c : Char) (r : List Char) :
    getLoop (some (TrieNode.mk cs v₁)) (c :: r) =
      getLoop (some (TrieNode.mk cs v₂)) (c :: r) := by
  simp [getLoop]

theorem getLoop_found {α : Type} {n : TrieNode α} {c : Char} {x : Trie α}
    (rest : List Char) (hfind : mapFind n.children_ c = some x) :
    getLoop (some n) (c :: rest) = getLoop x rest := by
  show (match mapFind n.children_ c with
    | none => none
    | some child => getLoop child rest) = getLoop x rest
  rw [hfind]

theorem getLoop_notFound {α : Type} {n : TrieNode α} {c : Char}
    (rest : List Char) (hfind : mapFind n.children_ c = none) :
    getLoop (some n) (c :: rest) = none := by
  show (match mapFind n.children_ c with
    | none => none
    | some child => getLoop child rest) = none
  rw [hfind]

theorem getLoop_cons_congr {α : Type} (m n : TrieNode α) (c : Char)
    (rest : List Char) (h : mapFind m.children_ c = mapFind n.children_ c) :
    getLoop (some m) (c :: rest) = getLoop (some n) (c :: rest) := by
  show (match mapFind m.children_ c with
    | none => none
    | some child => getLoop child rest) =
    (match mapFind n.children_ c with
    | none => none
    | some child => getLoop child rest)
  rw [h]

theorem removeLoop_step_found {α : Type} {curr child : TrieNode α} {c : Char}
    (c₂ : Char) (rest : List Char)
    (hfind : mapFind curr.children_ c = some (some child)) :
    removeLoop curr (c :: c₂ :: rest) =
      removeStep curr c (removeLoop child (c₂ :: rest)) := by
  show (match mapFind curr.children_ c with
    | none => RemRes.notFound
    | some none => RemRes.ub
    | some (some child) => removeStep curr c (removeLoop child (c₂ :: rest))) = _
  rw [hfind]

/-- After a successful `putLoop` on a non-empty key, `Get` of that key finds
the stored value, and `Remove` of that key succeeds and makes `Get` return
null afterwards. -/
theorem putLoop_spec {α : Type} (v : α) :
    ∀ (key : List Char) (curr n' : TrieNode α),
      putLoop v curr key = some n' → key ≠ [] →
      getLoop (some n') key = some v ∧
      ∃ n'', removeLoop n' key = RemRes.changed n'' ∧
        getLoop (some n'') key = none := by
  intro key
  induction key with
  | nil => intro curr n' _ hk; exact absurd rfl hk
  | cons c rest ih =>
    intro curr n' hp _
    cases rest with
    | nil =>
      rcases hfind : mapFind curr.children_ c with _ | (_ | child) <;>
        simp only [putLoop, hfind, Option.some.injEq] at hp
      · -- absent: fresh value node with empty children
        subst hp
        refine ⟨by simp [getLoop, mapFind_set_self], ?_⟩
        refine ⟨TrieNode.mk (mapSet (mapSet curr.children_ c
          (some (TrieNode.mk [] (some v)))) c none) curr.value_, ?_, ?_⟩
        · simp [removeLoop, mapFind_set_self, List.isEmpty]
        · simp [getLoop, mapFind_set_self, getLoop_none]
      · -- null entry: fresh value node with empty children
        subst hp
        refine ⟨by simp [getLoop, mapFind_set_self], ?_⟩
        refine ⟨TrieNode.mk (mapSet (mapSet curr.children_ c
          (some (TrieNode.mk [] (some v)))) c none) curr.value_, ?_, ?_⟩
        · simp [removeLoop, mapFind_set_self, List.isEmpty]
        · simp [getLoop, mapFind_set_self, getLoop_none]
      · -- existing child: value node inheriting its children
        subst hp
        refine ⟨by simp [getLoop, mapFind_set_self], ?_⟩
        cases hemp : child.children_.isEmpty
        · refine ⟨TrieNode.mk (mapSet (mapSet curr.children_ c
            (some (TrieNode.mk child.children_ (some v)))) c
            (some (TrieNode.mk child.children_ none))) curr.value_, ?_, ?_⟩
          · simp [removeLoop, mapFind_set_self, hemp]
          · simp [getLoop, mapFind_set_self]
        · refine ⟨TrieNode.mk (mapSet (mapSet curr.children_ c
            (some (TrieNode.mk child.children_ (some v)))) c none) curr.value_, ?_, ?_⟩
          · simp [removeLoop, mapFind_set_self, hemp]
          · simp [getLoop, mapFind_set_self, getLoop_none]
    | cons c₂ rest₂ =>
      rcases hfind : mapFind curr.children_ c with _ | (_ | child) <;>
        simp only [putLoop, hfind] at hp
      · rcases hsub : putLoop v (TrieNode.mk [] none) (c₂ :: rest₂) with _ | sub <;>
          rw [hsub] at hp
        · exact absurd hp (by simp)
        · simp only [Option.map_some', Option.some.injEq] at hp
          subst hp
          obtain ⟨hget, n'', hrem, hget'⟩ := ih (TrieNode.mk [] none) sub hsub (by simp)
          constructor
          · rw [getLoop_found (c₂ :: rest₂)
              (by rw [TrieNode.children_mk]; exact mapFind_set_self _ _ _)]
            exact hget
          · refine ⟨TrieNode.mk (mapSet (mapSet curr.children_ c (some sub)) c
              (some n'')) curr.value_, ?_, ?_⟩
            · rw [removeLoop_step_found c₂ rest₂
                (by rw [TrieNode.children_mk]; exact mapFind_set_self _ _ _), hrem]
              rfl
            · rw [getLoop_found (c₂ :: rest₂)
                (by rw [TrieNode.children_mk]; exact mapFind_set_self _ _ _)]
              exact hget'
      · exact absurd hp (by simp)
      · rcases hsub : putLoop v child (c₂ :: rest₂) with _ | sub <;>
          rw [hsub] at hp
        · exact absurd hp (by simp)
        · simp only [Option.map_some', Option.some.injEq] at hp
          subst hp
          obtain ⟨hget, n'', hrem, hget'⟩ := ih child sub hsub (by simp)
          constructor
          · rw [getLoop_found (c₂ :: rest₂)
              (by rw [TrieNode.children_mk]; exact mapFind_set_self _ _ _)]
            exact hget
          · refine ⟨TrieNode.mk (mapSet (mapSet curr.children_ c (some sub)) c
              (some n'')) curr.value_, ?_, ?_⟩
            · rw [removeLoop_step_found c₂ rest₂
                (by rw [TrieNode.children_mk]; exact mapFind_set_self _ _ _), hrem]
              rfl
            · rw [getLoop_found (c₂ :: rest₂)
                (by rw [TrieNode.children_mk]; exact mapFind_set_self _ _ _)]
              exact hget'

/-- A successful `putLoop` changes the lookup of no other key: `Get` of any
key different from the inserted one reads the same answer in the new
subtree as in the original one. -/
theorem putLoop_get_other {α : Type} (v : α) :
    ∀ (key : List Char) (curr n' : TrieNode α),
      putLoop v curr key = some n' →
      ∀ key₂, key₂ ≠ key →
        getLoop (some n') key₂ = getLoop (some curr) key₂ := by
  intro key
  induction key with
  | nil =>
    intro curr n' hp key₂ _
    simp only [putLoop, Option.some.injEq] at hp
    subst hp; rfl
  | cons c rest ih =>
    intro curr n' hp key₂ hne
    cases rest with
    | nil =>
      rcases hfind : mapFind curr.children_ c with _ | (_ | child) <;>
        simp only [putLoop, hfind, Option.some.injEq] at hp <;> subst hp
      · -- fresh value node in a previously absent slot
        match key₂, hne with
        | [], _ => rfl
        | c' :: r₂, hne =>
          by_cases hc : c' = c
          · subst hc
            have hr : r₂ ≠ [] := fun h => hne (by rw [h])
            rw [getLoop_found r₂
              (by rw [TrieNode.children_mk]; exact mapFind_set_self _ _ _)]
            rw [getLoop_notFound r₂ hfind]
            cases r₂ with
            | nil => exact absurd rfl hr
            | cons d r₃ => rw [getLoop_notFound r₃ (by rw [TrieNode.children_mk]; rfl)]
          · exact getLoop_cons_congr _ _ c' r₂
              (by rw [TrieNode.children_mk]; exact mapFind_set_ne _ _ _ _ hc)
      · -- fresh value node over a null slot
        match key₂, hne with
        | [], _ => rfl
        | c' :: r₂, hne =>
          by_cases hc : c' = c
          · subst hc
            have hr : r₂ ≠ [] := fun h => hne (by rw [h])
            rw [getLoop_found r₂
              (by rw [TrieNode.children_mk]; exact mapFind_set_self _ _ _)]
            rw [getLoop_found r₂ hfind, getLoop_none]
            cases r₂ with
            | nil => exact absurd rfl hr
            | cons d r₃ => rw [getLoop_notFound r₃ (by rw [TrieNode.children_mk]; rfl)]
          · exact getLoop_cons_congr _ _ c' r₂
              (by rw [TrieNode.children_mk]; exact mapFind_set_ne _ _ _ _ hc)
      · -- value node inheriting an existing child's children
        match key₂, hne with
        | [], _ => rfl
        | c' :: r₂, hne =>
          by_cases hc : c' = c
          · subst hc
            have hr : r₂ ≠ [] := fun h => hne (by rw [h])
            rw [getLoop_found r₂
              (by rw [TrieNode.children_mk]; exact mapFind_set_self _ _ _)]
            rw [getLoop_found r₂ hfind]
            cases r₂ with
            | nil => exact absurd rfl hr
            | cons d r₃ =>
              obtain ⟨cs, vc⟩ := child
              exact getLoop_value_irrel cs (some v) vc d r₃
          · exact getLoop_cons_congr _ _ c' r₂
              (by rw [TrieNode.children_mk]; exact mapFind_set_ne _ _ _ _ hc)
    | cons c₂ rest₂ =>
      rcases hfind : mapFind curr.children_ c with _ | (_ | child) <;>
        simp only [putLoop, hfind] at hp
      · rcases hsub : putLoop v (TrieNode.mk [] none) (c₂ :: rest₂) with _ | sub <;>
          rw [hsub] at hp
        · exact absurd hp (by simp)
        · simp only [Option.map_some', Option.some.injEq] at hp
          subst hp
          match key₂, hne with
          | [], _ => rfl
          | c' :: r₂, hne =>
            by_cases hc : c' = c
            · subst hc
              have hr : r₂ ≠ c₂ :: rest₂ := fun h => hne (by rw [h])
              rw [getLoop_found r₂
                (by rw [TrieNode.children_mk]; exact mapFind_set_self _ _ _)]
              rw [getLoop_notFound r₂ hfind]
              rw [ih (TrieNode.mk [] none) sub hsub r₂ hr]
              exact getLoop_fresh r₂
            · exact getLoop_cons_congr _ _ c' r₂
                (by rw [TrieNode.children_mk]; exact mapFind_set_ne _ _ _ _ hc)
      · exact absurd hp (by simp)
      · rcases hsub : putLoop v child (c₂ :: rest₂) with _ | sub <;>
          rw [hsub] at hp
        · exact absurd hp (by simp)
        · simp only [Option.map_some', Option.some.injEq] at hp
          subst hp
          match key₂, hne with
          | [], _ => rfl
          | c' :: r₂, hne =>
            by_cases hc : c' = c
            · subst hc
              have hr : r₂ ≠ c₂ :: rest₂ := fun h => hne (by rw [h])
              rw [getLoop_found r₂
                (by rw [TrieNode.children_mk]; exact mapFind_set_self _ _ _)]
              rw [getLoop_found r₂ hfind]
              exact ih child sub hsub r₂ hr
            · exact getLoop_cons_congr _ _ c' r₂
                (by rw [TrieNode.children_mk]; exact mapFind_set_ne _ _ _ _ hc)

/-- Any key extending a path that ends in a null child slot reads null. -/
theorem pathEndsNull_get {α : Type} :
    ∀ (key : List Char) (n : TrieNode α), pathEndsNull n key = true →
      ∀ s, getLoop (some n) (key ++ s) = none := by
  intro key
  induction key with
  | nil => intro n h s; simp [pathEndsNull] at h
  | cons c rest ih =>
    intro n h s
    cases rest with
    | nil =>
      rcases hf : mapFind n.children_ c with _ | (_ | child) <;>
        simp [pathEndsNull, hf] at h
      show getLoop (some n) (c :: s) = none
      rw [getLoop_found s hf, getLoop_none]
    | cons c₂ r₂ =>
      rcases hf : mapFind n.children_ c with _ | (_ | child) <;>
        simp [pathEndsNull, hf] at h
      show getLoop (some n) (c :: ((c₂ :: r₂) ++ s)) = none
      rw [getLoop_found ((c₂ :: r₂) ++ s) hf]
      exact ih child h s

/-- `putLoop` on any strict extension of a path ending in a null slot hits
the unguarded `Clone` of a null child (line 131). -/
theorem pathEndsNull_put {α : Type} (v : α) :
    ∀ (key : List Char) (n : TrieNode α), pathEndsNull n key = true →
      ∀ (d : Char) (s : List Char), putLoop v n (key ++ d :: s) = none := by
  intro key
  induction key with
  | nil => intro n h d s; simp [pathEndsNull] at h
  | cons c rest ih =>
    intro n h d s
    cases rest with
    | nil =>
      rcases hf : mapFind n.children_ c with _ | (_ | child) <;>
        simp [pathEndsNull, hf] at h
      show putLoop v n (c :: d :: s) = none
      simp only [putLoop, hf]
    | cons c₂ r₂ =>
      rcases hf : mapFind n.children_ c with _ | (_ | child) <;>
        simp [pathEndsNull, hf] at h
      show putLoop v n (c :: c₂ :: (r₂ ++ d :: s)) = none
      have hsub := ih child h d s
      rw [List.cons_append] at hsub
      simp only [putLoop, hf, hsub, Option.map_none']

/-- `removeLoop` on any strict extension of a path ending in a null slot hits
the unguarded `Clone` of a null child (line 166). -/
theorem pathEndsNull_remove {α : Type} :
    ∀ (key : List Char) (n : TrieNode α), pathEndsNull n key = true →
      ∀ (d : Char) (s : List Char), removeLoop n (key ++ d :: s) = RemRes.ub := by
  intro key
  induction key with
  | nil => intro n h d s; simp [pathEndsNull] at h
  | cons c rest ih =>
    intro n h d s
    cases rest with
    | nil =>
      rcases hf : mapFind n.children_ c with _ | (_ | child) <;>
        simp [pathEndsNull, hf] at h
      show removeLoop n (c :: d :: s) = RemRes.ub
      simp only [removeLoop, hf]
    | cons c₂ r₂ =>
      rcases hf : mapFind n.children_ c with _ | (_ | child) <;>
        simp [pathEndsNull, hf] at h
      show removeLoop n (c :: c₂ :: (r₂ ++ d :: s)) = RemRes.ub
      have hsub := ih child h d s
      rw [List.cons_append] at hsub
      rw [removeLoop_step_found c₂ (r₂ ++ d :: s) hf, hsub]
      rfl

/-! ## Claims about the trie -/

/-- C1 (amended): for every trie, every value and every NON-EMPTY key whose
`Put` completes without dereferencing a null child slot, `Get` of that key
on the new trie returns the value, and `Remove` of that key also completes
and makes `Get` of that key return null.  (As literally stated the claim is
false for the empty key, see the counterexample theorem.) -/
theorem trie_put_get_remove {α : Type} (t : Trie α) (key : List Char) (v : α)
    (t' : Trie α) (hk : key ≠ []) (hp : Trie.Put t key v = some t') :
    Trie.Get t' key = some v ∧
    ∃ t'', Trie.Remove t' key = some t'' ∧ Trie.Get t'' key = none := by
  cases key with
  | nil => exact absurd rfl hk
  | cons c rest =>
    have step : ∀ curr : TrieNode α,
        (match putLoop v curr (c :: rest) with
          | none => (none : Option (Trie α))
          | some n => some (some n)) = some t' →
        Trie.Get t' (c :: rest) = some v ∧
        ∃ t'', Trie.Remove t' (c :: rest) = some t'' ∧
          Trie.Get t'' (c :: rest) = none := by
      intro curr hp
      rcases hq : putLoop v curr (c :: rest) with _ | n <;> rw [hq] at hp
      · exact absurd hp (by simp)
      · simp only [Option.some.injEq] at hp
        subst hp
        obtain ⟨hget, n'', hrem, hget'⟩ := putLoop_spec v (c :: rest) curr n hq (by simp)
        refine ⟨hget, some n'', ?_, hget'⟩
        show (match removeLoop n (c :: rest) with
          | RemRes.ub => (none : Option (Trie α))
          | RemRes.notFound => some (some n)
          | RemRes.changed m => some (some m)) = some (some n'')
        rw [hrem]
    cases t with
    | none => exact step (TrieNode.mk [] none) hp
    | some root => exact step root hp

/-- C1 witness: a concrete run of the amended claim on the empty trie with
key "a" and value 1. -/
theorem trie_put_get_remove_witness :
    Trie.Put (none : Trie Nat) ['a'] 1 =
      some (some (TrieNode.mk [('a', some (TrieNode.mk [] (some 1)))] none)) ∧
    (Trie.Get (some (TrieNode.mk [('a', some (TrieNode.mk [] (some 1)))] none) :
        Trie Nat) ['a'] = some 1 ∧
      ∃ t'', Trie.Remove (some (TrieNode.mk [('a', some (TrieNode.mk []
        (some 1)))] none) : Trie Nat) ['a'] = some t'' ∧
        Trie.Get t'' ['a'] = none) :=
  ⟨rfl, trie_put_get_remove none ['a'] 1 _ (by simp) rfl⟩

/-- C1 counterexample: on the trie holding key "a" (built by a Put), putting
the empty key and then removing it does NOT make `Get` of the empty key
null: `Remove` of the empty key returns the root unchanged (its `Clone`
keeps the value), so `Get` still returns the stored value 2. -/
theorem trie_empty_key_cex :
    Trie.Put (some (TrieNode.mk [('a', some (TrieNode.mk [] (some 1)))] none) :
        Trie Nat) [] 2 =
      some (some (TrieNode.mk [('a', some (TrieNode.mk [] (some 1)))] (some 2))) ∧
    Trie.Remove (some (TrieNode.mk [('a', some (TrieNode.mk [] (some 1)))]
        (some 2)) : Trie Nat) [] =
      some (some (TrieNode.mk [('a', some (TrieNode.mk [] (some 1)))] (some 2))) ∧
    Trie.Get (some (TrieNode.mk [('a', some (TrieNode.mk [] (some 1)))]
        (some 2)) : Trie Nat) [] = some 2 ∧
    Trie.Get (some (TrieNode.mk [('a', some (TrieNode.mk [] (some 1)))]
        (some 2)) : Trie Nat) [] ≠ none :=
  ⟨rfl, rfl, rfl, by simp [Trie.Get, getLoop]⟩

/-- C2 (amended): `Remove` of the empty key on a value root does NOT strip
the value.  Because `TrieNodeWithValue::Clone` keeps the value (trie.cpp
line 150), the returned trie has the identical value root — still a value
node, with the same children — and `Get` of the empty key still returns the
old value instead of null. -/
theorem remove_empty_key_keeps_value {α : Type}
    (cs : List (Char × Option (TrieNode α))) (v : α) :
    Trie.Remove (some (TrieNode.mk cs (some v))) [] =
      some (some (TrieNode.mk cs (some v))) ∧
    Trie.Get ((some (TrieNode.mk cs (some v))) : Trie α) [] = some v ∧
    Trie.Get ((some (TrieNode.mk cs (some v))) : Trie α) [] ≠ none :=
  ⟨rfl, rfl, by simp [Trie.Get, getLoop]⟩

/-- C2 counterexample: on the concrete trie whose root is the value node
with child map `"b" ↦ leaf 1` and value 2, `Remove` of the empty key
returns the identical value root — its `value_` is still set, so it is not
an interior node — and `Get` of the empty key on the result yields
`some 2`, not null as the claim states. -/
theorem remove_empty_key_cex :
    Trie.Remove (some (TrieNode.mk [('b', some (TrieNode.mk [] (some 1)))]
        (some 2)) : Trie Nat) [] =
      some (some (TrieNode.mk [('b', some (TrieNode.mk [] (some 1)))]
        (some 2))) ∧
    (TrieNode.mk [('b', some (TrieNode.mk [] (some 1)))]
        (some (2 : Nat))).value_ ≠ none ∧
    Trie.Get (some (TrieNode.mk [('b', some (TrieNode.mk [] (some 1)))]
        (some 2)) : Trie Nat) [] = some 2 :=
  ⟨rfl, by simp, rfl⟩

/-- C3: `Put` is persistent.  Whenever `Put` of key `k₁` completes, `Get` of
any other key `k₂` on the new trie reads exactly what it reads on the
original trie (and the original trie value is untouched: the embedding is
pure, `Put` only builds a new root). -/
theorem trie_put_persistent {α : Type} (t : Trie α) (k₁ k₂ : List Char) (v : α)
    (t' : Trie α) (hp : Trie.Put t k₁ v = some t') (hne : k₂ ≠ k₁) :
    Trie.Get t' k₂ = Trie.Get t k₂ := by
  cases k₁ with
  | nil =>
    cases t with
    | none => exact absurd hp (by simp [Trie.Put])
    | some root =>
      simp only [Trie.Put, Option.some.injEq] at hp
      subst hp
      cases k₂ with
      | nil => exact absurd rfl hne
      | cons c r =>
        obtain ⟨cs, vr⟩ := root
        exact getLoop_value_irrel cs (some v) vr c r
  | cons c rest =>
    cases t with
    | none =>
      simp only [Trie.Put] at hp
      rcases hq : putLoop v (TrieNode.mk [] none) (c :: rest) with _ | n <;>
        rw [hq] at hp
      · exact absurd hp (by simp)
      · simp only [Option.some.injEq] at hp
        subst hp
        show getLoop (some n) k₂ = getLoop none k₂
        rw [putLoop_get_other v (c :: rest) _ n hq k₂ hne]
        rw [getLoop_fresh, getLoop_none]
    | some root =>
      simp only [Trie.Put] at hp
      rcases hq : putLoop v root (c :: rest) with _ | n <;> rw [hq] at hp
      · exact absurd hp (by simp)
      · simp only [Option.some.injEq] at hp
        subst hp
        exact putLoop_get_other v (c :: rest) root n hq k₂ hne

/-- C3 witness: putting "a" into the empty trie leaves the lookup of "b"
unchanged. -/
theorem trie_put_persistent_witness :
    Trie.Put (none : Trie Nat) ['a'] 1 =
      some (some (TrieNode.mk [('a', some (TrieNode.mk [] (some 1)))] none)) ∧
    Trie.Get (some (TrieNode.mk [('a', some (TrieNode.mk [] (some 1)))] none) :
        Trie Nat) ['b'] = Trie.Get (none : Trie Nat) ['b'] :=
  ⟨rfl, trie_put_persistent none ['a'] ['b'] 1 _ rfl (by decide)⟩

/-- C8 (amended): `Put` of the empty key on a trie with a null root
dereferences the null root (trie.cpp line 72 reads the children of `root_`
although only the unused `new_root` of line 67 was null-guarded), so for
every value the operation is undefined behaviour — no trie is returned —
instead of building a value root with empty children. -/
theorem put_empty_key_null_root_ub {α : Type} (v : α) :
    Trie.Put (none : Trie α) [] v = none := rfl

/-- C8 counterexample: putting the value 37 under the empty key into the
trie with a null root does not produce the claimed value root with empty
children; line 72 dereferences the null root, so no trie is returned at
all. -/
theorem put_empty_key_null_root_cex :
    Trie.Put (none : Trie Nat) [] 37 = none ∧
    Trie.Put (none : Trie Nat) [] 37 ≠
      some (some (TrieNode.mk [] (some 37))) :=
  ⟨rfl, fun h => Option.noConfusion h⟩

/-- C10: if walking `w` through the trie ends at an explicit null child
entry (as left behind by `Remove` of a childless terminal value node, line
179), then `Get` of `w` or any extension returns null without touching the
null pointer, while `Put` and `Remove` of any strictly longer key
dereference the null child (lines 131 and 166) and are undefined
behaviour. -/
theorem trie_null_slot_deref {α : Type} (t : Trie α) (w : List Char)
    (h : Trie.hasNullSlot t w = true) :
    (∀ s, Trie.Get t (w ++ s) = none) ∧
    (∀ (d : Char) (s : List Char) (v : α), Trie.Put t (w ++ d :: s) v = none) ∧
    (∀ (d : Char) (s : List Char), Trie.Remove t (w ++ d :: s) = none) := by
  cases t with
  | none => simp [Trie.hasNullSlot] at h
  | some root =>
    simp only [Trie.hasNullSlot] at h
    have hw : w ≠ [] := by
      intro hw
      subst hw
      simp [pathEndsNull] at h
    refine ⟨fun s => pathEndsNull_get w root h s, ?_, ?_⟩
    · intro d s v
      cases w with
      | nil => exact absurd rfl hw
      | cons c wrest =>
        have hput := pathEndsNull_put v (c :: wrest) root h d s
        rw [List.cons_append] at hput
        show (match putLoop v root (c :: (wrest ++ d :: s)) with
          | none => (none : Option (Trie α))
          | some n => some (some n)) = none
        rw [hput]
    · intro d s
      cases w with
      | nil => exact absurd rfl hw
      | cons c wrest =>
        have hrem := pathEndsNull_remove (c :: wrest) root h d s
        rw [List.cons_append] at hrem
        show (match removeLoop root (c :: (wrest ++ d :: s)) with
          | RemRes.ub => (none : Option (Trie α))
          | RemRes.notFound => some (some root)
          | RemRes.changed n => some (some n)) = none
        rw [hrem]

/-- C10 witness: the trie obtained through the public API by Put "a" then
Remove "a" has a null slot at "a"; `Get` of "ab" is null, while `Put` and
`Remove` of "ab" hit the null dereference. -/
theorem trie_null_slot_deref_witness :
    Trie.Put (none : Trie Nat) ['a'] 1 =
      some (some (TrieNode.mk [('a', some (TrieNode.mk [] (some 1)))] none)) ∧
    Trie.Remove (some (TrieNode.mk [('a', some (TrieNode.mk [] (some 1)))]
        none) : Trie Nat) ['a'] =
      some (some (TrieNode.mk [('a', none)] none)) ∧
    Trie.hasNullSlot (some (TrieNode.mk [('a', none)] none) : Trie Nat)
      ['a'] = true ∧
    Trie.Get (some (TrieNode.mk [('a', none)] none) : Trie Nat)
      (['a'] ++ ['b']) = none ∧
    Trie.Put (some (TrieNode.mk [('a', none)] none) : Trie Nat)
      (['a'] ++ 'b' :: []) 5 = none ∧
    Trie.Remove (some (TrieNode.mk [('a', none)] none) : Trie Nat)
      (['a'] ++ 'b' :: []) = none :=
  ⟨rfl, rfl, rfl,
    (trie_null_slot_deref (some (TrieNode.mk [('a', none)] none) : Trie Nat)
      ['a'] rfl).1 ['b'],
    (trie_null_slot_deref (some (TrieNode.mk [('a', none)] none) : Trie Nat)
      ['a'] rfl).2.1 'b' [] 5,
    (trie_null_slot_deref (some (TrieNode.mk [('a', none)] none) : Trie Nat)
      ['a'] rfl).2.2 'b' []⟩

/-! ## LRU-K replacer (src/unnamed/part_001)

Frame ids are embedded as `Nat` (the C++ `frame_id_t` is a signed int, but
`RecordAccess` rejects negative ids, so only the upper-bound check remains).
`node_store_` is an association list standing for the `std::unordered_map`;
iteration order in `Evict` is the list order.  Since the selection loop
resolves ties by keeping the first candidate and all comparisons used below
are strict, the characterization proved for `Evict` is independent of that
order.  `SIZE_MAX` is the sentinel initial value of
`least_recent_vis_stamp`. -/

def SIZE_MAX : Nat := 2 ^ 64 - 1

/-- Modelled from the spec: lru_k_replacer.h is absent from the sources.
Spec section 3 gives `LRUKNode` a bounded timestamp history (oldest first)
and an `is_evictable` flag; section 4.2 says a new node defaults to
`is_evictable = false`. -/
structure LRUKNode where
  history_ : List Nat
  is_evictable_ : Bool
deriving DecidableEq, Repr

structure LRUKReplacer where
  node_store_ : List (Nat × LRUKNode)
  current_timestamp_ : Nat
  curr_size_ : Nat
  replacer_size_ : Nat
  k_ : Nat
deriving DecidableEq, Repr

/-- The constructor `LRUKReplacer(num_frames, k)` (part_001 line 3). -/
def mkLRUKReplacer (num_frames k : Nat) : LRUKReplacer :=
  { node_store_ := [], current_timestamp_ := 0, curr_size_ := 0,
    replacer_size_ := num_frames, k_ := k }

/-- `LRUKReplacer::RecordAccess` (part_001 lines 43-60); `none` is the
thrown exception for an out-of-range frame id. -/
def LRUKReplacer.RecordAccess (r : LRUKReplacer) (frame_id : Nat) :
    Option LRUKReplacer :=
  if r.replacer_size_ ≤ frame_id then none
  else
    match mapFind r.node_store_ frame_id with
    | none =>
      some { r with
        node_store_ := r.node_store_ ++
          [(frame_id, ⟨[r.current_timestamp_], false⟩)],
        current_timestamp_ := r.current_timestamp_ + 1 }
    | some node =>
      let h := if node.history_.length = r.k_ then node.history_.tail
        else node.history_
      some { r with
        node_store_ := mapSet r.node_store_ frame_id
          ⟨h ++ [r.current_timestamp_], node.is_evictable_⟩,
        current_timestamp_ := r.current_timestamp_ + 1 }

/-- `LRUKReplacer::SetEvictable` (part_001 lines 62-80); `none` is the
thrown exception for an unknown frame id. -/
def LRUKReplacer.SetEvictable (r : LRUKReplacer) (frame_id : Nat)
    (set_evictable : Bool) : Option LRUKReplacer :=
  match mapFind r.node_store_ frame_id with
  | none => none
  | some node =>
    if node.is_evictable_ && !set_evictable then
      some { r with
        curr_size_ := r.curr_size_ - 1,
        node_store_ := mapSet r.node_store_ frame_id
          ⟨node.history_, set_evictable⟩ }
    else if !node.is_evictable_ && set_evictable then
      some { r with
        curr_size_ := r.curr_size_ + 1,
        node_store_ := mapSet r.node_store_ frame_id
          ⟨node.history_, set_evictable⟩ }
    else some r  -- line 76: early return without touching the flag

/-- `LRUKReplacer::Remove` (part_001 lines 82-97). -/
def LRUKReplacer.Remove (r : LRUKReplacer) (frame_id : Nat) : LRUKReplacer :=
  match mapFind r.node_store_ frame_id with
  | none => r
  | some node =>
    if node.is_evictable_ then
      { r with
        node_store_ := mapSet r.node_store_ frame_id ⟨[], false⟩,
        curr_size_ := r.curr_size_ - 1 }
    else r

/-- The selection loop of `LRUKReplacer::Evict` (part_001 lines 16-34) over
the remaining entries, carrying the loop state `flag`, `max_difference`,
`least_recent_vis_stamp` and the frame id written so far.  The outer `none`
is the undefined behaviour of reading `front()` of an empty history; the
inner `none` means the loop never wrote the out parameter. -/
def evictLoop (k ts : Nat) :
    List (Nat × LRUKNode) → Bool → Nat → Nat → Option Nat → Option (Option Nat)
  | [], _, _, _, fid => some fid
  | (id, node) :: rest, flag, max_difference, least, fid =>
    if node.is_evictable_ then
      if node.history_.isEmpty then none  -- front() of an empty history
      else if node.history_.length ≠ k then
        -- +inf backward-k distance (lines 21-28); flag is cleared first
        if least > node.history_.headI then
          evictLoop k ts rest false max_difference node.history_.headI (some id)
        else evictLoop k ts rest false max_difference least fid
      else
        if flag ∧ ts - node.history_.headI > max_difference then
          evictLoop k ts rest flag (ts - node.history_.headI) least (some id)
        else evictLoop k ts rest flag max_difference least fid
    else evictLoop k ts rest flag max_difference least fid

/-- `LRUKReplacer::Evict` (part_001 lines 5-41).  Results: `some none` is
`return false`; `some (some (r', f))` is `return true` with out parameter
`f`; the outer `none` marks undefined behaviour (empty-history `front()`,
or the loop never writing the out parameter, which line 36 then reads
uninitialized).  The final update uses `operator[]`, which on a present key
assigns the fields in place; the id written by the loop always comes from
the store. -/
def LRUKReplacer.Evict (r : LRUKReplacer) :
    Option (Option (LRUKReplacer × Nat)) :=
  if r.curr_size_ = 0 then some none
  else
    match evictLoop r.k_ r.current_timestamp_ r.node_store_ true 0 SIZE_MAX none with
    | none => none
    | some none => none
    | some (some f) =>
      some (some ({ r with
        node_store_ := mapSet r.node_store_ f ⟨[], false⟩,
        curr_size_ := r.curr_size_ - 1 }, f))

/-- The number of store entries whose `is_evictable_` flag is set. -/
def countEvictable (l : List (Nat × LRUKNode)) : Nat :=
  (l.filter fun p => p.2.is_evictable_).length

theorem mapFind_eq_none_imp_forall {κ β : Type} [DecidableEq κ]
    (m : List (κ × β)) (k : κ) (h : mapFind m k = none) :
    ∀ p ∈ m, p.1 ≠ k := by
  induction m with
  | nil => simp
  | cons q r ih =>
    obtain ⟨k', v'⟩ := q
    by_cases hk : k' = k
    · simp [mapFind, hk] at h
    · intro p hp
      rcases List.mem_cons.mp hp with hp | hp
      · subst hp; exact hk
      · exact ih (by simpa [mapFind, hk] using h) p hp

theorem mapFind_of_mem_nodup {κ β : Type} [DecidableEq κ]
    (m : List (κ × β)) (k : κ) (v : β) (hmem : (k, v) ∈ m)
    (hnd : (m.map Prod.fst).Nodup) : mapFind m k = some v := by
  induction m with
  | nil => simp at hmem
  | cons q r ih =>
    obtain ⟨k', v'⟩ := q
    simp only [List.map_cons, List.nodup_cons] at hnd
    rcases List.mem_cons.mp hmem with hp | hp
    · obtain ⟨hk, hv⟩ := Prod.mk.injEq .. ▸ hp
      simp [mapFind, hk.symm, hv]
    · have hk : k' ≠ k := by
        intro he
        exact hnd.1 (he ▸ List.mem_map_of_mem Prod.fst hp)
      simp only [mapFind, if_neg hk]
      exact ih hp hnd.2

theorem keys_mapSet_of_found {κ β : Type} [DecidableEq κ]
    (m : List (κ × β)) (k : κ) (v w : β) (h : mapFind m k = some w) :
    (mapSet m k v).map Prod.fst = m.map Prod.fst := by
  induction m with
  | nil => simp [mapFind] at h
  | cons q r ih =>
    obtain ⟨k', v'⟩ := q
    by_cases hk : k' = k
    · simp [mapSet, hk]
    · simp only [mapFind, if_neg hk] at h
      simp [mapSet, if_neg hk, ih h]

/-- Replacing an evictable entry by a non-evictable one lowers the
evictable count by exactly one. -/
theorem countEvictable_set_off (m : List (Nat × LRUKNode)) (f : Nat)
    (n n' : LRUKNode) (hfind : mapFind m f = some n)
    (hev : n.is_evictable_ = true) (hev' : n'.is_evictable_ = false) :
    countEvictable (mapSet m f n') + 1 = countEvictable m := by
  induction m with
  | nil => simp [mapFind] at hfind
  | cons q r ih =>
    obtain ⟨g, p⟩ := q
    by_cases hk : g = f
    · simp only [mapFind, if_pos hk, Option.some.injEq] at hfind
      subst hfind
      simp [mapSet, countEvictable, hk, hev, hev', List.filter]
    · simp only [mapFind, if_neg hk] at hfind
      have := ih hfind
      cases hpe : p.is_evictable_ <;>
        simp_all [mapSet, countEvictable, if_neg hk, List.filter]

/-- Replacing a non-evictable entry by an evictable one raises the
evictable count by exactly one. -/
theorem countEvictable_set_on (m : List (Nat × LRUKNode)) (f : Nat)
    (n n' : LRUKNode) (hfind : mapFind m f = some n)
    (hev : n.is_evictable_ = false) (hev' : n'.is_evictable_ = true) :
    countEvictable (mapSet m f n') = countEvictable m + 1 := by
  induction m with
  | nil => simp [mapFind] at hfind
  | cons q r ih =>
    obtain ⟨g, p⟩ := q
    by_cases hk : g = f
    · simp only [mapFind, if_pos hk, Option.some.injEq] at hfind
      subst hfind
      simp [mapSet, countEvictable, hk, hev, hev', List.filter]
    · simp only [mapFind, if_neg hk] at hfind
      have := ih hfind
      cases hpe : p.is_evictable_ <;>
        simp_all [mapSet, countEvictable, if_neg hk, List.filter]

/-- Replacing an entry by one with the same evictability keeps the count. -/
theorem countEvictable_set_same (m : List (Nat × LRUKNode)) (f : Nat)
    (n n' : LRUKNode) (hfind : mapFind m f = some n)
    (hev : n'.is_evictable_ = n.is_evictable_) :
    countEvictable (mapSet m f n') = countEvictable m := by
  induction m with
  | nil => simp [mapFind] at hfind
  | cons q r ih =>
    obtain ⟨g, p⟩ := q
    by_cases hk : g = f
    · simp only [mapFind, if_pos hk, Option.some.injEq] at hfind
      subst hfind
      cases hpe : p.is_evictable_ <;>
        simp_all [mapSet, countEvictable, hk, List.filter]
    · simp only [mapFind, if_neg hk] at hfind
      have := ih hfind
      cases hpe : p.is_evictable_ <;>
        simp_all [mapSet, countEvictable, if_neg hk, List.filter]

theorem countEvictable_append_one (m : List (Nat × LRUKNode)) (f : Nat)
    (n : LRUKNode) (hev : n.is_evictable_ = false) :
    countEvictable (m ++ [(f, n)]) = countEvictable m := by
  simp [countEvictable, List.filter_append, hev, List.filter]

/-- If `evictLoop` reports a frame id, it is the accumulated one or the id
of an evictable entry of the remaining list. -/
theorem evictLoop_mem (k ts : Nat) :
    ∀ (L : List (Nat × LRUKNode)) (flag : Bool) (maxd least : Nat)
      (fid : Option Nat) (f : Nat),
      evictLoop k ts L flag maxd least fid = some (some f) →
      fid = some f ∨ ∃ n, (f, n) ∈ L ∧ n.is_evictable_ = true := by
  intro L
  induction L with
  | nil =>
    intro flag maxd least fid f h
    simp only [evictLoop, Option.some.injEq] at h
    exact Or.inl h
  | cons q rest ih =>
    intro flag maxd least fid f h
    obtain ⟨id, node⟩ := q
    have hstep : ∀ (fl : Bool) (md ls : Nat) (fi : Option Nat),
        evictLoop k ts rest fl md ls fi = some (some f) →
        (fi = some f ∨ ∃ n, (f, n) ∈ (id, node) :: rest ∧
          n.is_evictable_ = true) := by
      intro fl md ls fi hrec
      rcases ih fl md ls fi f hrec with hfi | ⟨n, hn, hev⟩
      · exact Or.inl hfi
      · exact Or.inr ⟨n, List.mem_cons_of_mem _ hn, hev⟩
    simp only [evictLoop] at h
    have hstep2 : ∀ (fl : Bool) (md ls : Nat),
        evictLoop k ts rest fl md ls (some id) = some (some f) →
        node.is_evictable_ = true →
        (fid = some f ∨ ∃ n, (f, n) ∈ (id, node) :: rest ∧
          n.is_evictable_ = true) := by
      intro fl md ls hrec hev
      rcases ih fl md ls (some id) f hrec with hfi | ⟨n, hn, hev'⟩
      · simp only [Option.some.injEq] at hfi
        subst hfi
        exact Or.inr ⟨node, List.mem_cons_self _ _, hev⟩
      · exact Or.inr ⟨n, List.mem_cons_of_mem _ hn, hev'⟩
    split_ifs at h with hev hemp hlen hlt hcond <;>
      first
        | exact absurd h (by simp)
        | exact hstep2 _ _ _ h hev
        | exact hstep _ _ _ _ h

/-- One externally observable, defined (non-throwing, non-UB) step of the
replacer API. -/
inductive ReplacerStep : LRUKReplacer → LRUKReplacer → Prop where
  | record {r r' : LRUKReplacer} (f : Nat) :
      r.RecordAccess f = some r' → ReplacerStep r r'
  | setEvictable {r r' : LRUKReplacer} (f : Nat) (b : Bool) :
      r.SetEvictable f b = some r' → ReplacerStep r r'
  | remove {r : LRUKReplacer} (f : Nat) : ReplacerStep r (r.Remove f)
  | evictHit {r r' : LRUKReplacer} (f : Nat) :
      r.Evict = some (some (r', f)) → ReplacerStep r r'
  | evictMiss {r : LRUKReplacer} : r.Evict = some none → ReplacerStep r r

/-- Replacer states produced by some sequence of defined operations from a
freshly constructed replacer. -/
inductive ReplacerReachable (num_frames k : Nat) : LRUKReplacer → Prop where
  | init : ReplacerReachable num_frames k (mkLRUKReplacer num_frames k)
  | step {r r' : LRUKReplacer} : ReplacerReachable num_frames k r →
      ReplacerStep r r' → ReplacerReachable num_frames k r'

/-- The auxiliary invariant: distinct store keys, and `curr_size_` equal to
the number of evictable nodes. -/
def ReplacerInv (r : LRUKReplacer) : Prop :=
  (r.node_store_.map Prod.fst).Nodup ∧
    r.curr_size_ = countEvictable r.node_store_

theorem replacerInv_step (r r' : LRUKReplacer) (hinv : ReplacerInv r)
    (hstep : ReplacerStep r r') : ReplacerInv r' := by
  obtain ⟨hnd, hcnt⟩ := hinv
  cases hstep with
  | record f hop =>
    simp only [LRUKReplacer.RecordAccess] at hop
    split_ifs at hop with hrange
    rcases hfind : mapFind r.node_store_ f with _ | node <;>
        rw [hfind] at hop <;> dsimp only at hop
    · simp only [Option.some.injEq] at hop
      subst hop
      refine ⟨?_, ?_⟩
      · dsimp only
        simp only [List.map_append, List.map_cons, List.map_nil]
        rw [List.nodup_append]
        refine ⟨hnd, List.nodup_singleton _, ?_⟩
        intro a ha hb
        rw [List.mem_singleton] at hb
        obtain ⟨p, hp, hpa⟩ := List.mem_map.mp ha
        exact mapFind_eq_none_imp_forall _ _ hfind p hp (hpa.trans hb)
      · dsimp only
        rw [countEvictable_append_one _ _ _ rfl]
        exact hcnt
    · simp only [Option.some.injEq] at hop
      subst hop
      refine ⟨?_, ?_⟩
      · dsimp only
        rw [keys_mapSet_of_found _ _ _ _ hfind]
        exact hnd
      · dsimp only
        rw [countEvictable_set_same r.node_store_ f node
          ⟨(if node.history_.length = r.k_ then node.history_.tail
            else node.history_) ++ [r.current_timestamp_],
            node.is_evictable_⟩ hfind rfl]
        exact hcnt
  | setEvictable f b hop =>
    simp only [LRUKReplacer.SetEvictable] at hop
    rcases hfind : mapFind r.node_store_ f with _ | node <;>
        rw [hfind] at hop <;> dsimp only at hop
    · exact absurd hop (by simp)
    · split_ifs at hop with h1 h2
      · simp only [Option.some.injEq] at hop
        subst hop
        simp only [Bool.and_eq_true, Bool.not_eq_true'] at h1
        have hc := countEvictable_set_off r.node_store_ f node
          ⟨node.history_, b⟩ hfind h1.1 h1.2
        refine ⟨?_, ?_⟩
        · dsimp only
          rw [keys_mapSet_of_found _ _ _ _ hfind]
          exact hnd
        · dsimp only
          omega
      · simp only [Option.some.injEq] at hop
        subst hop
        simp only [Bool.and_eq_true, Bool.not_eq_true'] at h2
        have hc := countEvictable_set_on r.node_store_ f node
          ⟨node.history_, b⟩ hfind h2.1 h2.2
        refine ⟨?_, ?_⟩
        · dsimp only
          rw [keys_mapSet_of_found _ _ _ _ hfind]
          exact hnd
        · dsimp only
          omega
      · simp only [Option.some.injEq] at hop
        subst hop
        exact ⟨hnd, hcnt⟩
  | remove f =>
    rcases hfind : mapFind r.node_store_ f with _ | node
    · simp only [LRUKReplacer.Remove, hfind]
      exact ⟨hnd, hcnt⟩
    · simp only [LRUKReplacer.Remove, hfind]
      by_cases hev : node.is_evictable_ = true
      · rw [if_pos hev]
        have hc := countEvictable_set_off r.node_store_ f node
          ⟨[], false⟩ hfind hev rfl
        refine ⟨?_, ?_⟩
        · dsimp only
          rw [keys_mapSet_of_found _ _ _ _ hfind]
          exact hnd
        · dsimp only
          omega
      · rw [if_neg hev]
        exact ⟨hnd, hcnt⟩
  | evictHit f hop =>
    simp only [LRUKReplacer.Evict] at hop
    split_ifs at hop with hzero
    · exact absurd hop (by simp)
    · rcases hloop : evictLoop r.k_ r.current_timestamp_ r.node_store_ true 0
          SIZE_MAX none with _ | (_ | g) <;> rw [hloop] at hop
      · exact absurd hop (by simp)
      · exact absurd hop (by simp)
      · simp only [Option.some.injEq, Prod.mk.injEq] at hop
        obtain ⟨hr', hgf⟩ := hop
        subst hr'
        rcases evictLoop_mem _ _ _ _ _ _ _ _ hloop with hfi | ⟨n, hn, hev⟩
        · exact absurd hfi (by simp)
        · have hfind := mapFind_of_mem_nodup _ _ _ hn hnd
          have hc := countEvictable_set_off r.node_store_ g n ⟨[], false⟩
            hfind hev rfl
          refine ⟨?_, ?_⟩
          · dsimp only
            rw [keys_mapSet_of_found _ _ _ _ hfind]
            exact hnd
          · dsimp only
            omega
  | evictMiss hop => exact ⟨hnd, hcnt⟩

theorem replacerInv_reachable (num_frames k : Nat) (r : LRUKReplacer)
    (h : ReplacerReachable num_frames k r) : ReplacerInv r := by
  induction h with
  | init => exact ⟨by simp [mkLRUKReplacer], by simp [mkLRUKReplacer, countEvictable]⟩
  | step hreach hstep ih => exact replacerInv_step _ _ ih hstep

/-! ## Claim C9 -/

/-- C9: in every replacer state reachable from a fresh `LRUKReplacer` by
defined `RecordAccess` / `SetEvictable` / `Remove` / `Evict` operations,
`curr_size_` equals the number of stored nodes whose `is_evictable_` flag
is set. -/
theorem replacer_size_invariant (num_frames k : Nat) (r : LRUKReplacer)
    (h : ReplacerReachable num_frames k r) :
    r.curr_size_ = countEvictable r.node_store_ :=
  (replacerInv_reachable num_frames k r h).2

/-- The state reached from a fresh two-frame replacer by RecordAccess 0 then
SetEvictable 0 true. -/
def witnessReplacer : LRUKReplacer :=
  { node_store_ := [(0, { history_ := [0], is_evictable_ := true })],
    current_timestamp_ := 1, curr_size_ := 1, replacer_size_ := 2, k_ := 2 }

/-- C9 witness: the invariant evaluated on the concrete state reached by
RecordAccess 0 then SetEvictable 0 true from a fresh two-frame replacer. -/
theorem replacer_size_invariant_witness :
    witnessReplacer.curr_size_ = countEvictable witnessReplacer.node_store_ :=
  replacer_size_invariant 2 2 witnessReplacer
    (ReplacerReachable.step
      (ReplacerReachable.step ReplacerReachable.init
        (ReplacerStep.record 0 rfl))
      (ReplacerStep.setEvictable 0 true rfl))

/-! ## Claim C4: characterization of Evict

The loop of `Evict` is characterized through an accumulator invariant
`InvAcc` relating the loop state after processing a prefix `P` of the store
to the victims seen so far, and a result characterization `ResultChar`
expressing the backward-k-distance selection rule over the whole store. -/

/-- Loop-state invariant of `evictLoop` after processing the prefix `P`. -/
def InvAcc (k ts : Nat) (P : List (Nat × LRUKNode)) (flag : Bool)
    (maxd least : Nat) (fid : Option Nat) : Prop :=
  (flag = true ∧ least = SIZE_MAX ∧
    (∀ p ∈ P, p.2.is_evictable_ = true → p.2.history_.length = k) ∧
    ((fid = none ∧ maxd = 0 ∧ ∀ p ∈ P, p.2.is_evictable_ = false) ∨
     (∃ g n, fid = some g ∧ (g, n) ∈ P ∧ n.is_evictable_ = true ∧
       maxd = ts - n.history_.headI ∧
       ∀ p ∈ P, p.2.is_evictable_ = true →
         ts - p.2.history_.headI ≤ maxd)))
  ∨
  (flag = false ∧
    (∃ g n, fid = some g ∧ (g, n) ∈ P ∧ n.is_evictable_ = true ∧
      n.history_.length ≠ k ∧ least = n.history_.headI ∧
      ∀ p ∈ P, p.2.is_evictable_ = true → p.2.history_.length ≠ k →
        least ≤ p.2.history_.headI))

/-- The backward-k-distance selection rule over the whole store `M`: if an
evictable frame with fewer than `k` accesses exists, the result is such a
frame with the least first (oldest) timestamp; otherwise it is an evictable
frame with maximal `ts - history.front`. -/
def ResultChar (k ts : Nat) (M : List (Nat × LRUKNode))
    (fid' : Option Nat) : Prop :=
  ((∃ p ∈ M, p.2.is_evictable_ = true ∧ p.2.history_.length ≠ k) →
    ∃ g n, fid' = some g ∧ (g, n) ∈ M ∧ n.is_evictable_ = true ∧
      n.history_.length ≠ k ∧
      ∀ p ∈ M, p.2.is_evictable_ = true → p.2.history_.length ≠ k →
        n.history_.headI ≤ p.2.history_.headI)
  ∧
  ((∀ p ∈ M, p.2.is_evictable_ = true → p.2.history_.length = k) →
    (∃ p ∈ M, p.2.is_evictable_ = true) →
    ∃ g n, fid' = some g ∧ (g, n) ∈ M ∧ n.is_evictable_ = true ∧
      ∀ p ∈ M, p.2.is_evictable_ = true →
        ts - p.2.history_.headI ≤ ts - n.history_.headI)

theorem invAcc_nil (k ts : Nat) :
    InvAcc k ts [] true 0 SIZE_MAX none := by
  left
  exact ⟨rfl, rfl, by simp, Or.inl ⟨rfl, rfl, by simp⟩⟩

/-- A non-evictable entry does not change the loop state. -/
theorem invAcc_skip (k ts : Nat) (P : List (Nat × LRUKNode)) (flag : Bool)
    (maxd least : Nat) (fid : Option Nat) (id : Nat) (node : LRUKNode)
    (hinv : InvAcc k ts P flag maxd least fid)
    (hev : node.is_evictable_ = false) :
    InvAcc k ts (P ++ [(id, node)]) flag maxd least fid := by
  rcases hinv with ⟨hf, hl, hall, hrest⟩ | ⟨hf, g, n, hfid, hmem, hrest⟩
  · refine Or.inl ⟨hf, hl, ?_, ?_⟩
    · intro p hp hpe
      rcases List.mem_append.mp hp with hp | hp
      · exact hall p hp hpe
      · rw [List.mem_singleton] at hp
        subst hp
        exact absurd hpe (by simp [hev])
    · rcases hrest with ⟨h1, h2, h3⟩ | ⟨g, n, h1, h2, h3, h4, h5⟩
      · refine Or.inl ⟨h1, h2, ?_⟩
        intro p hp
        rcases List.mem_append.mp hp with hp | hp
        · exact h3 p hp
        · rw [List.mem_singleton] at hp
          subst hp
          exact hev
      · refine Or.inr ⟨g, n, h1, List.mem_append_left _ h2, h3, h4, ?_⟩
        intro p hp hpe
        rcases List.mem_append.mp hp with hp | hp
        · exact h5 p hp hpe
        · rw [List.mem_singleton] at hp
          subst hp
          exact absurd hpe (by simp [hev])
  · obtain ⟨hnev, hnlen, hleast, hbound⟩ := hrest
    refine Or.inr ⟨hf, g, n, hfid, List.mem_append_left _ hmem, hnev,
      hnlen, hleast, ?_⟩
    intro p hp hpe hpl
    rcases List.mem_append.mp hp with hp | hp
    · exact hbound p hp hpe hpl
    · rw [List.mem_singleton] at hp
      subst hp
      exact absurd hpe (by simp [hev])

/-- An evictable +inf entry whose front beats the running minimum becomes
the new recorded victim and clears the flag. -/
theorem invAcc_inf_take (k ts : Nat) (P : List (Nat × LRUKNode))
    (flag : Bool) (maxd least : Nat) (fid : Option Nat) (id : Nat)
    (node : LRUKNode) (hinv : InvAcc k ts P flag maxd least fid)
    (hev : node.is_evictable_ = true) (hlen : node.history_.length ≠ k)
    (hlt : least > node.history_.headI) :
    InvAcc k ts (P ++ [(id, node)]) false maxd node.history_.headI
      (some id) := by
  refine Or.inr ⟨rfl, id, node, rfl, List.mem_append_right _ (by simp),
    hev, hlen, rfl, ?_⟩
  intro p hp hpe hpl
  rcases List.mem_append.mp hp with hp | hp
  · rcases hinv with ⟨_, _, hall, _⟩ | ⟨_, g, n, _, _, _, _, hleast, hbound⟩
    · exact absurd (hall p hp hpe) hpl
    · exact le_trans (le_of_lt (hleast ▸ hlt)) (hbound p hp hpe hpl)
  · rw [List.mem_singleton] at hp
    subst hp
    exact le_refl _

/-- An evictable +inf entry whose front does not beat the running minimum
only clears the flag; this can happen only when an earlier +inf entry was
already recorded. -/
theorem invAcc_inf_keep (k ts : Nat) (P : List (Nat × LRUKNode))
    (flag : Bool) (maxd least : Nat) (fid : Option Nat) (id : Nat)
    (node : LRUKNode) (hinv : InvAcc k ts P flag maxd least fid)
    (hev : node.is_evictable_ = true) (hlen : node.history_.length ≠ k)
    (hge : ¬ least > node.history_.headI)
    (hts_node : node.history_.headI < ts) (htsmax : ts ≤ SIZE_MAX) :
    InvAcc k ts (P ++ [(id, node)]) false maxd least fid := by
  rcases hinv with ⟨_, hl, _, _⟩ | ⟨_, g, n, hfid, hmem, hnev, hnlen, hleast, hbound⟩
  · -- flag still true means least = SIZE_MAX, contradicting front < ts ≤ SIZE_MAX
    exact absurd (hl ▸ lt_of_lt_of_le hts_node htsmax) hge
  · refine Or.inr ⟨rfl, g, n, hfid, List.mem_append_left _ hmem, hnev, hnlen,
      hleast, ?_⟩
    intro p hp hpe hpl
    rcases List.mem_append.mp hp with hp | hp
    · exact hbound p hp hpe hpl
    · rw [List.mem_singleton] at hp
      subst hp
      exact le_of_not_lt hge

/-- An evictable full-history entry whose distance beats the running
maximum (with the flag still set) becomes the new recorded victim. -/
theorem invAcc_k_take (k ts : Nat) (P : List (Nat × LRUKNode))
    (maxd least : Nat) (fid : Option Nat) (id : Nat) (node : LRUKNode)
    (hinv : InvAcc k ts P true maxd least fid)
    (hev : node.is_evictable_ = true) (hlen : node.history_.length = k)
    (hgt : ts - node.history_.headI > maxd) :
    InvAcc k ts (P ++ [(id, node)]) true (ts - node.history_.headI) least
      (some id) := by
  rcases hinv with ⟨_, hl, hall, hrest⟩ | ⟨hfalse, _⟩
  · refine Or.inl ⟨rfl, hl, ?_, ?_⟩
    · intro p hp hpe
      rcases List.mem_append.mp hp with hp | hp
      · exact hall p hp hpe
      · rw [List.mem_singleton] at hp
        subst hp
        exact hlen
    · refine Or.inr ⟨id, node, rfl, List.mem_append_right _ (by simp), hev,
        rfl, ?_⟩
      intro p hp hpe
      rcases List.mem_append.mp hp with hp | hp
      · rcases hrest with ⟨_, hmz, hnone⟩ | ⟨g, n, _, _, _, hmx, hbound⟩
        · exact absurd (hnone p hp) (by simp [hpe])
        · exact le_trans (hbound p hp hpe) (le_of_lt (hmx ▸ hgt))
      · rw [List.mem_singleton] at hp
        subst hp
        exact le_refl _
  · exact absurd hfalse (by simp)

/-- An evictable full-history entry that does not beat the running maximum
(or arrives after the flag was cleared) leaves the loop state unchanged. -/
theorem invAcc_k_keep (k ts : Nat) (P : List (Nat × LRUKNode)) (flag : Bool)
    (maxd least : Nat) (fid : Option Nat) (id : Nat) (node : LRUKNode)
    (hinv : InvAcc k ts P flag maxd least fid)
    (hev : node.is_evictable_ = true) (hlen : node.history_.length = k)
    (hng : ¬ (flag = true ∧ ts - node.history_.headI > maxd))
    (hts_node : node.history_.headI < ts) :
    InvAcc k ts (P ++ [(id, node)]) flag maxd least fid := by
  rcases hinv with ⟨hf, hl, hall, hrest⟩ | ⟨hf, g, n, hfid, hmem, hnev, hnlen, hleast, hbound⟩
  · subst hf
    have hle : ts - node.history_.headI ≤ maxd := by
      rcases Nat.lt_or_ge maxd (ts - node.history_.headI) with h | h
      · exact absurd ⟨rfl, h⟩ hng
      · exact h
    refine Or.inl ⟨rfl, hl, ?_, ?_⟩
    · intro p hp hpe
      rcases List.mem_append.mp hp with hp | hp
      · exact hall p hp hpe
      · rw [List.mem_singleton] at hp
        subst hp
        exact hlen
    · rcases hrest with ⟨_, hmz, hnone⟩ | ⟨g, n, hfid, hgm, hgev, hmx, hbound⟩
      · -- maxd = 0 yet ts - front ≥ 1: impossible for an evictable entry
        exact absurd (Nat.lt_of_lt_of_le (Nat.sub_pos_of_lt hts_node)
          (hmz ▸ hle)) (by simp)
      · refine Or.inr ⟨g, n, hfid, List.mem_append_left _ hgm, hgev, hmx, ?_⟩
        intro p hp hpe
        rcases List.mem_append.mp hp with hp | hp
        · exact hbound p hp hpe
        · rw [List.mem_singleton] at hp
          subst hp
          exact hle
  · subst hf
    refine Or.inr ⟨rfl, g, n, hfid, List.mem_append_left _ hmem, hnev, hnlen,
      hleast, ?_⟩
    intro p hp hpe hpl
    rcases List.mem_append.mp hp with hp | hp
    · exact hbound p hp hpe hpl
    · rw [List.mem_singleton] at hp
      subst hp
      exact absurd hlen hpl

/-- At the end of the loop the accumulator invariant gives the selection
rule over the whole store. -/
theorem invAcc_final (k ts : Nat) (M : List (Nat × LRUKNode))
    (flag : Bool) (maxd least : Nat) (fid : Option Nat)
    (hinv : InvAcc k ts M flag maxd least fid) :
    ResultChar k ts M fid := by
  constructor
  · rintro ⟨p, hp, hpe, hpl⟩
    rcases hinv with ⟨_, _, hall, _⟩ | ⟨_, g, n, hfid, hmem, hnev, hnlen, hleast, hbound⟩
    · exact absurd (hall p hp hpe) hpl
    · exact ⟨g, n, hfid, hmem, hnev, hnlen, fun q hq hqe hql =>
        hleast ▸ hbound q hq hqe hql⟩
  · rintro hall ⟨p, hp, hpe⟩
    rcases hinv with ⟨_, _, _, hrest⟩ | ⟨_, g, n, hfid, hmem, hnev, hnlen, _, _⟩
    · rcases hrest with ⟨_, _, hnone⟩ | ⟨g, n, hfid, hgm, hgev, hmx, hbound⟩
      · exact absurd (hnone p hp) (by simp [hpe])
      · exact ⟨g, n, hfid, hgm, hgev, fun q hq hqe => hmx ▸ hbound q hq hqe⟩
    · exact absurd (hall (g, n) hmem hnev) hnlen

/-- Full characterization of the `Evict` selection loop, by induction on
the unprocessed suffix `L` of the store. -/
theorem evictLoop_char (k ts : Nat) (M : List (Nat × LRUKNode))
    (hhist : ∀ p ∈ M, p.2.is_evictable_ = true → p.2.history_ ≠ [])
    (hts : ∀ p ∈ M, p.2.is_evictable_ = true → p.2.history_.headI < ts)
    (htsmax : ts ≤ SIZE_MAX) :
    ∀ (L P : List (Nat × LRUKNode)) (flag : Bool) (maxd least : Nat)
      (fid : Option Nat), M = P ++ L →
      InvAcc k ts P flag maxd least fid →
      ∃ fid', evictLoop k ts L flag maxd least fid = some fid' ∧
        ResultChar k ts M fid' := by
  intro L
  induction L with
  | nil =>
    intro P flag maxd least fid hM hinv
    rw [List.append_nil] at hM
    subst hM
    exact ⟨fid, rfl, invAcc_final k ts M flag maxd least fid hinv⟩
  | cons e L' ih =>
    intro P flag maxd least fid hM hinv
    obtain ⟨id, node⟩ := e
    have hMP : M = (P ++ [(id, node)]) ++ L' := by
      rw [hM, List.append_assoc, List.singleton_append]
    have hmemM : (id, node) ∈ M := by
      rw [hM]
      exact List.mem_append_right _ (List.mem_cons_self _ _)
    by_cases hev : node.is_evictable_ = true
    · have hne : node.history_ ≠ [] := hhist _ hmemM hev
      have hempty : node.history_.isEmpty = false := by
        cases h₂ : node.history_ <;> simp_all
      have htsn : node.history_.headI < ts := hts _ hmemM hev
      simp only [evictLoop]
      rw [if_pos hev, if_neg (by simp [hempty])]
      by_cases hlen : node.history_.length ≠ k
      · rw [if_pos hlen]
        by_cases hlt : least > node.history_.headI
        · rw [if_pos hlt]
          exact ih (P ++ [(id, node)]) false maxd node.history_.headI
            (some id) hMP
            (invAcc_inf_take k ts P flag maxd least fid id node hinv hev
              hlen hlt)
        · rw [if_neg hlt]
          exact ih (P ++ [(id, node)]) false maxd least fid hMP
            (invAcc_inf_keep k ts P flag maxd least fid id node hinv hev
              hlen hlt htsn htsmax)
      · rw [if_neg hlen]
        have hlenk : node.history_.length = k := Classical.not_not.mp hlen
        by_cases hcond : flag = true ∧ ts - node.history_.headI > maxd
        · rw [if_pos hcond]
          obtain ⟨hflag, hgt⟩ := hcond
          subst hflag
          exact ih (P ++ [(id, node)]) true (ts - node.history_.headI) least
            (some id) hMP
            (invAcc_k_take k ts P maxd least fid id node hinv hev hlenk hgt)
        · rw [if_neg hcond]
          exact ih (P ++ [(id, node)]) flag maxd least fid hMP
            (invAcc_k_keep k ts P flag maxd least fid id node hinv hev
              hlenk hcond htsn)
    · have hev' : node.is_evictable_ = false := by
        cases h₂ : node.is_evictable_
        · rfl
        · exact absurd h₂ hev
      simp only [evictLoop]
      rw [if_neg (by simp [hev'])]
      exact ih (P ++ [(id, node)]) flag maxd least fid hMP
        (invAcc_skip k ts P flag maxd least fid id node hinv hev')

/-- C4: `Evict` returns false when `curr_size_` is 0.  Otherwise, in any
state whose evictable nodes have non-empty histories of length at most `k`
with first timestamps below `current_timestamp_` (as holds in every state
the replacer API produces), it picks an evictable frame by the
backward-k-distance rule: a fewer-than-k-accesses frame with the smallest
earliest timestamp if one exists, else the frame maximizing
`current_timestamp_ - history.front`; it marks the victim non-evictable,
clears its history, decrements `curr_size_`, writes its id to the out
parameter and returns true. -/
theorem evict_spec (r : LRUKReplacer)
    (hhist : ∀ p ∈ r.node_store_, p.2.is_evictable_ = true →
      p.2.history_ ≠ [])
    (hlen : ∀ p ∈ r.node_store_, p.2.is_evictable_ = true →
      p.2.history_.length ≤ r.k_)
    (hts : ∀ p ∈ r.node_store_, p.2.is_evictable_ = true →
      p.2.history_.headI < r.current_timestamp_)
    (htsmax : r.current_timestamp_ ≤ SIZE_MAX) :
    (r.curr_size_ = 0 → r.Evict = some none) ∧
    (r.curr_size_ ≠ 0 → (∃ p ∈ r.node_store_, p.2.is_evictable_ = true) →
      ∃ g n, (g, n) ∈ r.node_store_ ∧ n.is_evictable_ = true ∧
        r.Evict = some (some ({ r with
          node_store_ := mapSet r.node_store_ g ⟨[], false⟩,
          curr_size_ := r.curr_size_ - 1 }, g)) ∧
        ((∃ p ∈ r.node_store_, p.2.is_evictable_ = true ∧
            p.2.history_.length < r.k_) →
          n.history_.length < r.k_ ∧
          ∀ p ∈ r.node_store_, p.2.is_evictable_ = true →
            p.2.history_.length < r.k_ →
              n.history_.headI ≤ p.2.history_.headI) ∧
        ((∀ p ∈ r.node_store_, p.2.is_evictable_ = true →
            p.2.history_.length = r.k_) →
          ∀ p ∈ r.node_store_, p.2.is_evictable_ = true →
            r.current_timestamp_ - p.2.history_.headI ≤
              r.current_timestamp_ - n.history_.headI)) := by
  constructor
  · intro hz
    simp only [LRUKReplacer.Evict, if_pos hz]
  · intro hz hex
    obtain ⟨fid', hloop, hchar⟩ := evictLoop_char r.k_ r.current_timestamp_
      r.node_store_ hhist hts htsmax r.node_store_ [] true 0 SIZE_MAX none
      (by simp) (invAcc_nil _ _)
    by_cases hinf : ∃ p ∈ r.node_store_, p.2.is_evictable_ = true ∧
        p.2.history_.length ≠ r.k_
    · obtain ⟨g, n, hfid, hmem, hnev, hnlen, hmin⟩ := hchar.1 hinf
      subst hfid
      refine ⟨g, n, hmem, hnev, ?_, ?_, ?_⟩
      · simp only [LRUKReplacer.Evict, if_neg hz, hloop]
      · intro _
        refine ⟨Nat.lt_of_le_of_ne (hlen _ hmem hnev) hnlen, ?_⟩
        intro p hp hpe hpl
        exact hmin p hp hpe (Nat.ne_of_lt hpl)
      · intro hall
        exact absurd (hall _ hmem hnev) hnlen
    · have hallk : ∀ p ∈ r.node_store_, p.2.is_evictable_ = true →
          p.2.history_.length = r.k_ := fun p hp hpe =>
        Classical.byContradiction fun hne => hinf ⟨p, hp, hpe, hne⟩
      obtain ⟨g, n, hfid, hmem, hnev, hmax⟩ := hchar.2 hallk hex
      subst hfid
      refine ⟨g, n, hmem, hnev, ?_, ?_, ?_⟩
      · simp only [LRUKReplacer.Evict, if_neg hz, hloop]
      · rintro ⟨p, hp, hpe, hpl⟩
        exact absurd (hallk p hp hpe) (Nat.ne_of_lt hpl)
      · intro _ p hp hpe
        exact hmax p hp hpe

/-- A replacer state with one full-history frame (timestamps 1 and 3) and
one +inf frame (single timestamp 2), both evictable, at time 5. -/
def witnessEvictReplacer : LRUKReplacer :=
  { node_store_ := [(0, { history_ := [1, 3], is_evictable_ := true }),
      (1, { history_ := [2], is_evictable_ := true })],
    current_timestamp_ := 5, curr_size_ := 2, replacer_size_ := 3, k_ := 2 }

/-- C4 witness: the Evict specification applied to a concrete state. -/
theorem evict_spec_witness :
    ∃ g n, (g, n) ∈ witnessEvictReplacer.node_store_ ∧
      n.is_evictable_ = true ∧
      witnessEvictReplacer.Evict = some (some ({ witnessEvictReplacer with
        node_store_ := mapSet witnessEvictReplacer.node_store_ g ⟨[], false⟩,
        curr_size_ := witnessEvictReplacer.curr_size_ - 1 }, g)) ∧
      ((∃ p ∈ witnessEvictReplacer.node_store_, p.2.is_evictable_ = true ∧
          p.2.history_.length < witnessEvictReplacer.k_) →
        n.history_.length < witnessEvictReplacer.k_ ∧
        ∀ p ∈ witnessEvictReplacer.node_store_, p.2.is_evictable_ = true →
          p.2.history_.length < witnessEvictReplacer.k_ →
            n.history_.headI ≤ p.2.history_.headI) ∧
      ((∀ p ∈ witnessEvictReplacer.node_store_, p.2.is_evictable_ = true →
          p.2.history_.length = witnessEvictReplacer.k_) →
        ∀ p ∈ witnessEvictReplacer.node_store_, p.2.is_evictable_ = true →
          witnessEvictReplacer.current_timestamp_ - p.2.history_.headI ≤
            witnessEvictReplacer.current_timestamp_ - n.history_.headI) :=
  (evict_spec witnessEvictReplacer (by decide) (by decide) (by decide)
    (by decide)).2 (by decide)
    ⟨(1, { history_ := [2], is_evictable_ := true }), by decide, rfl⟩

/-! ## Buffer pool manager (src/CPP/buffer_pool_manager/buffer_pool_manager.cpp)

Page ids are `Int` so the sentinel `INVALID_PAGE_ID = -1` is expressible;
frame ids are `Nat` indices into the `pages_` list.  The page buffer
contents are abstracted to a single `Nat` value per page; the disk is a map
from page id to such a value.  Operations return `none` for executions that
are undefined in the source (an out-of-range frame index, or a replacer
exception). -/

def INVALID_PAGE_ID : Int := -1

/-- Modelled from the spec: page.h is absent from the sources.  Spec
sections 3 and 4.1 give a `Page` a data buffer (zeroed by `ResetMemory`),
`page_id` (initially `INVALID_PAGE_ID`), an unsigned `pin_count` (initially
0) and an `is_dirty` flag (initially false). -/
structure Page where
  data_ : Nat
  page_id_ : Int
  pin_count_ : Nat
  is_dirty_ : Bool
deriving DecidableEq, Repr

def defaultPage : Page :=
  { data_ := 0, page_id_ := INVALID_PAGE_ID, pin_count_ := 0,
    is_dirty_ := false }

structure BufferPoolManager where
  pool_size_ : Nat
  pages_ : List Page
  page_table_ : List (Int × Nat)
  free_list_ : List Nat
  replacer_ : LRUKReplacer
  next_page_id_ : Int
  disk_ : List (Int × Nat)
deriving DecidableEq, Repr

/-- The constructor (buffer_pool_manager.cpp lines 4-15): all frames hold
default pages and every frame id is on the free list; the disk collaborator
starts empty. -/
def mkBPM (pool_size replacer_k : Nat) : BufferPoolManager :=
  { pool_size_ := pool_size,
    pages_ := List.replicate pool_size defaultPage,
    page_table_ := [],
    free_list_ := List.range pool_size,
    replacer_ := mkLRUKReplacer pool_size replacer_k,
    next_page_id_ := 0,
    disk_ := [] }

/-- Lines 31-52 of `NewPage`, shared by both victim sources: allocate the
next page id, write back a dirty victim, retarget the frame and register
it.  `none` marks an out-of-range frame or a replacer exception. -/
def newPageWithFrame (b : BufferPoolManager) (frame : Nat) :
    Option (BufferPoolManager × Option Int) :=
  match b.pages_[frame]? with
  | none => none
  | some page =>
    let pid := b.next_page_id_
    let b₁ := { b with next_page_id_ := b.next_page_id_ + 1 }
    let b₂ := if page.is_dirty_ then
        { b₁ with disk_ := mapSet b₁.disk_ page.page_id_ page.data_ }
      else b₁
    let b₃ := { b₂ with page_table_ := mapErase b₂.page_table_ page.page_id_ }
    match b₃.replacer_.RecordAccess frame with
    | none => none
    | some rep₁ =>
      match rep₁.SetEvictable frame false with
      | none => none
      | some rep₂ =>
        some ({ b₃ with
          replacer_ := rep₂,
          pages_ := b₃.pages_.set frame
            { data_ := 0, page_id_ := pid, pin_count_ := 1,
              is_dirty_ := false },
          page_table_ := mapSet b₃.page_table_ pid frame }, some pid)

/-- `BufferPoolManager::NewPage` (lines 19-53).  The result pairs the new
manager state with the written out parameter: `some pid` on success, `none`
when the function returns nullptr without writing it. -/
def BufferPoolManager.NewPage (b : BufferPoolManager) :
    Option (BufferPoolManager × Option Int) :=
  match b.free_list_ with
  | f :: rest => newPageWithFrame { b with free_list_ := rest } f
  | [] =>
    match b.replacer_.Evict with
    | none => none
    | some none => some (b, none)
    | some (some (rep, f)) => newPageWithFrame { b with replacer_ := rep } f

/-- `BufferPoolManager::UnpinPage` (lines 99-119). -/
def BufferPoolManager.UnpinPage (b : BufferPoolManager) (page_id : Int)
    (is_dirty : Bool) : Option (BufferPoolManager × Bool) :=
  match mapFind b.page_table_ page_id with
  | none => some (b, false)
  | some frame =>
    match b.pages_[frame]? with
    | none => none
    | some page =>
      if page.pin_count_ = 0 then some (b, false)
      else
        let page₁ := if is_dirty then { page with is_dirty_ := true }
          else page
        let page₂ := { page₁ with pin_count_ := page₁.pin_count_ - 1 }
        if page₂.pin_count_ = 0 then
          match b.replacer_.SetEvictable frame true with
          | none => none
          | some rep =>
            some ({ b with
              pages_ := b.pages_.set frame page₂,
              replacer_ := rep }, true)
        else some ({ b with pages_ := b.pages_.set frame page₂ }, true)

/-- `BufferPoolManager::FlushPage` (lines 121-134): writes the buffer to
disk unconditionally and clears the dirty flag. -/
def BufferPoolManager.FlushPage (b : BufferPoolManager) (page_id : Int) :
    Option (BufferPoolManager × Bool) :=
  if page_id = INVALID_PAGE_ID then some (b, false)
  else
    match mapFind b.page_table_ page_id with
    | none => some (b, false)
    | some frame =>
      match b.pages_[frame]? with
      | none => none
      | some page =>
        some ({ b with
          disk_ := mapSet b.disk_ page_id page.data_,
          pages_ := b.pages_.set frame { page with is_dirty_ := false } },
          true)

/-- The loop of `FlushAllPages` after `n` iterations: `FlushPage` has been
called on page ids `0, 1, ..., n-1` in order (lines 138-140 treat the loop
index as a page id). -/
def flushUpto (b : BufferPoolManager) : Nat → Option BufferPoolManager
  | 0 => some b
  | n + 1 =>
    (flushUpto b n).bind fun b' => (b'.FlushPage (Int.ofNat n)).map Prod.fst

/-- `BufferPoolManager::FlushAllPages` (lines 136-141). -/
def BufferPoolManager.FlushAllPages (b : BufferPoolManager) :
    Option BufferPoolManager :=
  flushUpto b b.pool_size_

/-- Running `NewPage` `n` times in sequence, collecting each call's out
parameter. -/
def runNewPages : Nat → BufferPoolManager → Option (BufferPoolManager × List (Option Int))
  | 0, b => some (b, [])
  | n + 1, b =>
    b.NewPage.bind fun pr =>
      (runNewPages n pr.1).map fun pr' => (pr'.1, pr.2 :: pr'.2)

/-! ## Claim C5 -/

/-- C5 counterexample: `FlushAllPages` does NOT flush every resident page.
On a one-frame pool, create page 0, unpin it dirty, create page 1 (evicting
page 0), unpin page 1 dirty.  Page 1 is resident (frame 0) and dirty, but
`FlushAllPages` only calls `FlushPage` on ids `0 ≤ i < pool_size`, so page
1 (id 1 ≥ pool_size = 1) is never flushed: its frame stays dirty and the
disk never receives its contents. -/
theorem flushall_misses_resident_page :
    ((mkBPM 1 2).NewPage.bind fun pr₁ =>
      (pr₁.1.UnpinPage 0 true).bind fun pr₂ =>
      pr₂.1.NewPage.bind fun pr₃ =>
      (pr₃.1.UnpinPage 1 true).bind fun pr₄ =>
      pr₄.1.FlushAllPages.map fun b =>
        (mapFind b.page_table_ 1, (b.pages_[0]?).map Page.is_dirty_,
          mapFind b.disk_ 1)) =
      some (some 0, some true, none) := by
  rfl

/-- `FlushPage` on a valid page id absent from the page table does nothing
and returns false (lines 125-127). -/
theorem flushPage_not_resident (b : BufferPoolManager) (q : Int)
    (hq : q ≠ INVALID_PAGE_ID) (h : mapFind b.page_table_ q = none) :
    b.FlushPage q = some (b, false) := by
  simp only [BufferPoolManager.FlushPage, if_neg hq, h]

/-- `FlushPage` on a resident page writes the frame's buffer to disk under
the page id and clears the frame's dirty flag (lines 128-133). -/
theorem flushPage_resident (b : BufferPoolManager) (q : Int) (fr : Nat)
    (pg : Page) (hq : q ≠ INVALID_PAGE_ID)
    (h : mapFind b.page_table_ q = some fr) (hpg : b.pages_[fr]? = some pg) :
    b.FlushPage q = some ({ b with
      disk_ := mapSet b.disk_ q pg.data_,
      pages_ := b.pages_.set fr { pg with is_dirty_ := false } }, true) := by
  simp only [BufferPoolManager.FlushPage, if_neg hq, h, hpg]

/-- Rewriting the dirty flag to the value it already has is the identity on
a `Page`. -/
theorem page_dirty_false_eta (pg : Page) (h : pg.is_dirty_ = false) :
    ({ pg with is_dirty_ := false } : Page) = pg := by
  cases pg
  simp_all

/-- Invariant of the `FlushAllPages` loop: after `FlushPage` has run on the
page ids `0, ..., j-1`, the page table is unchanged, the pool has the same
number of frames, and every resident page whose id is a natural number
below `j` has a clean frame whose buffer contents sit on disk under its
id. -/
theorem flushUpto_spec (b : BufferPoolManager)
    (hwf : ∀ p ∈ b.page_table_, p.2 < b.pages_.length) (j : Nat) :
    ∃ b', flushUpto b j = some b' ∧
      b'.page_table_ = b.page_table_ ∧
      b'.pages_.length = b.pages_.length ∧
      ∀ m frame, m < j → mapFind b.page_table_ (Int.ofNat m) = some frame →
        ∃ page, b'.pages_[frame]? = some page ∧ page.is_dirty_ = false ∧
          mapFind b'.disk_ (Int.ofNat m) = some page.data_ := by
  induction j with
  | zero =>
    exact ⟨b, rfl, rfl, rfl, fun m frame hm _ => absurd hm (by omega)⟩
  | succ j ih =>
    obtain ⟨b', hup, htab, hlen, hdone⟩ := ih
    have hstep : flushUpto b (j + 1) =
        (flushUpto b j).bind fun x =>
          (x.FlushPage (Int.ofNat j)).map Prod.fst := rfl
    have hinv : Int.ofNat j ≠ INVALID_PAGE_ID := by
      simp only [INVALID_PAGE_ID, Int.ofNat_eq_natCast]
      omega
    cases hres : mapFind b.page_table_ (Int.ofNat j) with
    | none =>
      have hfp := flushPage_not_resident b' (Int.ofNat j) hinv
        (by rw [htab]; exact hres)
      refine ⟨b', ?_, htab, hlen, ?_⟩
      · rw [hstep, hup]
        simp only [Option.some_bind]
        rw [hfp]
        rfl
      · intro m frame hm hm2
        by_cases hmj : m = j
        · subst hmj
          rw [hm2] at hres
          exact Option.noConfusion hres
        · exact hdone m frame (by omega) hm2
    | some fr =>
      have hfr : fr < b'.pages_.length := by
        rw [hlen]
        exact hwf _ (mapFind_mem _ _ _ hres)
      obtain ⟨pg, hpg⟩ : ∃ pg, b'.pages_[fr]? = some pg :=
        ⟨_, List.getElem?_eq_getElem hfr⟩
      have hfp := flushPage_resident b' (Int.ofNat j) fr pg hinv
        (by rw [htab]; exact hres) hpg
      refine ⟨{ b' with
          disk_ := mapSet b'.disk_ (Int.ofNat j) pg.data_,
          pages_ := b'.pages_.set fr { pg with is_dirty_ := false } },
        ?_, htab, ?_, ?_⟩
      · rw [hstep, hup]
        simp only [Option.some_bind]
        rw [hfp]
        rfl
      · simp only [List.length_set]
        exact hlen
      · intro m frame hm hm2
        dsimp only
        by_cases hmj : m = j
        · subst hmj
          have hffr : frame = fr := Option.some.inj (hm2.symm.trans hres)
          subst hffr
          refine ⟨{ pg with is_dirty_ := false }, ?_, rfl, ?_⟩
          · simp [List.getElem?_set_self, hfr]
          · exact mapFind_set_self _ _ _
        · have hmne : Int.ofNat m ≠ Int.ofNat j := by
            simp only [Int.ofNat_eq_natCast]
            omega
          obtain ⟨page, hpage, hdirty, hdisk⟩ := hdone m frame (by omega) hm2
          refine ⟨page, ?_, hdirty, ?_⟩
          · by_cases hffr : frame = fr
            · subst hffr
              have hpe : page = pg := by
                rw [hpage] at hpg
                exact Option.some.inj hpg
              subst hpe
              rw [page_dirty_false_eta page hdirty]
              simp [List.getElem?_set_self, hfr, hpage]
            · have hne : fr ≠ frame := fun h => hffr h.symm
              simp [List.getElem?_set_ne, hne, hpage]
          · rw [mapFind_set_ne _ _ _ _ hmne]
            exact hdisk

/-- C5 (amended): `FlushAllPages` flushes exactly the resident pages whose
ids lie below `pool_size`: for every page id `m < pool_size` present in the
page table, after `FlushAllPages` the page is still resident in the same
frame, the frame's dirty flag is false, and the disk entry of `m` holds the
frame's buffer contents.  Resident pages with id ≥ pool_size are missed —
lines 138-140 pass the loop index, not the page-table keys, to `FlushPage`
— as the counterexample shows. -/
theorem flushall_flushes_small_ids (b : BufferPoolManager) (m frame : Nat)
    (hm : m < b.pool_size_)
    (hres : mapFind b.page_table_ (Int.ofNat m) = some frame)
    (hwf : ∀ p ∈ b.page_table_, p.2 < b.pages_.length) :
    ∃ b' page, b.FlushAllPages = some b' ∧
      b'.page_table_ = b.page_table_ ∧
      b'.pages_[frame]? = some page ∧ page.is_dirty_ = false ∧
      mapFind b'.disk_ (Int.ofNat m) = some page.data_ := by
  obtain ⟨b', hup, htab, hlen, hdone⟩ := flushUpto_spec b hwf b.pool_size_
  obtain ⟨page, hpage, hdirty, hdisk⟩ := hdone m frame hm hres
  exact ⟨b', page, hup, htab, hpage, hdirty, hdisk⟩

/-- A one-frame pool holding the dirty resident page 0 whose buffer
contains 7, with nothing on disk yet. -/
def bpmFlushWitness : BufferPoolManager :=
  { pool_size_ := 1,
    pages_ := [{ data_ := 7, page_id_ := 0, pin_count_ := 0,
                 is_dirty_ := true }],
    page_table_ := [(0, 0)],
    free_list_ := [],
    replacer_ := mkLRUKReplacer 1 2,
    next_page_id_ := 1,
    disk_ := [] }

/-- C5 witness: on the one-frame pool holding the dirty resident page 0
(id 0 < pool_size = 1) with buffer contents 7, `FlushAllPages` keeps the
page resident, clears the frame's dirty flag and puts 7 on disk under
id 0. -/
theorem flushall_flushes_small_ids_witness :
    0 < bpmFlushWitness.pool_size_ ∧
    mapFind bpmFlushWitness.page_table_ (Int.ofNat 0) = some 0 ∧
    (∀ p ∈ bpmFlushWitness.page_table_,
      p.2 < bpmFlushWitness.pages_.length) ∧
    ∃ b' page, bpmFlushWitness.FlushAllPages = some b' ∧
      b'.page_table_ = bpmFlushWitness.page_table_ ∧
      b'.pages_[0]? = some page ∧ page.is_dirty_ = false ∧
      mapFind b'.disk_ (Int.ofNat 0) = some page.data_ :=
  ⟨by decide, rfl, by decide,
    flushall_flushes_small_ids bpmFlushWitness 0 0 (by decide) rfl
      (by decide)⟩

/-! ## Claim C6 -/

/-- C6: `UnpinPage(page_id, is_dirty)` returns false leaving the state
unchanged if the page is not resident or its pin count is 0; otherwise it
ORs `is_dirty` into the frame's dirty flag, decrements the pin count, marks
the frame evictable in the replacer exactly when the count reaches zero,
and returns true. -/
theorem unpin_spec (b : BufferPoolManager) (page_id : Int) (d : Bool) :
    (mapFind b.page_table_ page_id = none →
      b.UnpinPage page_id d = some (b, false)) ∧
    (∀ frame page, mapFind b.page_table_ page_id = some frame →
      b.pages_[frame]? = some page → page.pin_count_ = 0 →
      b.UnpinPage page_id d = some (b, false)) ∧
    (∀ frame page, mapFind b.page_table_ page_id = some frame →
      b.pages_[frame]? = some page → 0 < page.pin_count_ →
      ((1 < page.pin_count_ →
        b.UnpinPage page_id d = some ({ b with
          pages_ := b.pages_.set frame
            { page with
              is_dirty_ := page.is_dirty_ || d,
              pin_count_ := page.pin_count_ - 1 } }, true)) ∧
      (page.pin_count_ = 1 → ∀ rep,
        b.replacer_.SetEvictable frame true = some rep →
        b.UnpinPage page_id d = some ({ b with
          pages_ := b.pages_.set frame
            { page with
              is_dirty_ := page.is_dirty_ || d,
              pin_count_ := 0 },
          replacer_ := rep }, true)))) := by
  refine ⟨?_, ?_, ?_⟩
  · intro h
    simp only [BufferPoolManager.UnpinPage, h]
  · intro frame page hf hp hz
    simp only [BufferPoolManager.UnpinPage, hf, hp, if_pos hz]
  · intro frame page hf hp hpos
    have hdirty : (if d then { page with is_dirty_ := true } else page) =
        { page with is_dirty_ := page.is_dirty_ || d } := by
      cases d <;> simp
    constructor
    · intro h1
      simp only [BufferPoolManager.UnpinPage, hf, hp, hdirty,
        if_neg (by omega : ¬ page.pin_count_ = 0)]
      split_ifs with hc
      · exfalso
        omega
      · rfl
    · intro h1 rep hrep
      simp only [BufferPoolManager.UnpinPage, hf, hp, hdirty,
        if_neg (by omega : ¬ page.pin_count_ = 0)]
      split_ifs with hc
      · rw [hrep]
        simp [h1]
      · exfalso
        omega

/-- A one-frame pool holding page 0 (data 5) pinned once, its frame known
to the replacer. -/
def bpmUnpinWitness : BufferPoolManager :=
  { pool_size_ := 1,
    pages_ := [{ data_ := 5, page_id_ := 0, pin_count_ := 1,
                 is_dirty_ := false }],
    page_table_ := [(0, 0)],
    free_list_ := [],
    replacer_ := { node_store_ := [(0, { history_ := [0], is_evictable_ := false })],
                   current_timestamp_ := 1, curr_size_ := 0,
                   replacer_size_ := 1, k_ := 2 },
    next_page_id_ := 1,
    disk_ := [] }

/-- C6 witness: unpinning page 0 dirty on the concrete pool drops the pin
count to zero, sets the dirty bit, and marks frame 0 evictable. -/
theorem unpin_spec_witness :
    bpmUnpinWitness.UnpinPage 0 true = some ({ bpmUnpinWitness with
      pages_ := bpmUnpinWitness.pages_.set 0
        { ({ data_ := 5, page_id_ := 0, pin_count_ := 1, is_dirty_ := false } : Page) with
          is_dirty_ := ({ data_ := 5, page_id_ := 0, pin_count_ := 1, is_dirty_ := false } : Page).is_dirty_ || true,
          pin_count_ := 0 },
      replacer_ := { node_store_ := [(0, { history_ := [0], is_evictable_ := true })],
                     current_timestamp_ := 1, curr_size_ := 1,
                     replacer_size_ := 1, k_ := 2 } }, true) :=
  ((unpin_spec bpmUnpinWitness 0 true).2.2 0
    { data_ := 5, page_id_ := 0, pin_count_ := 1, is_dirty_ := false }
    rfl rfl (by decide)).2 rfl
    { node_store_ := [(0, { history_ := [0], is_evictable_ := true })],
      current_timestamp_ := 1, curr_size_ := 1, replacer_size_ := 1,
      k_ := 2 } rfl

/-! ## Claim C7

The state of a fresh pool after `j` successful `NewPage` calls is described
in closed form by `midBPM`; each call pops frame `j` off the free list,
allocates page id `j` and pins the frame. -/

/-- The page slot holding freshly created page `i`, pinned once. -/
def livePage (i : Nat) : Page :=
  { data_ := 0, page_id_ := Int.ofNat i, pin_count_ := 1,
    is_dirty_ := false }

/-- Frame contents after the first `j` `NewPage` calls. -/
def midPages (n j : Nat) : List Page :=
  (List.range n).map fun i => if i < j then livePage i else defaultPage

/-- Page table after the first `j` `NewPage` calls. -/
def midTable (j : Nat) : List (Int × Nat) :=
  (List.range j).map fun i => (Int.ofNat i, i)

/-- Replacer store after the first `j` `NewPage` calls. -/
def midStore (j : Nat) : List (Nat × LRUKNode) :=
  (List.range j).map fun i => (i, { history_ := [i], is_evictable_ := false })

/-- Replacer state after the first `j` `NewPage` calls. -/
def midReplacer (n k j : Nat) : LRUKReplacer :=
  { node_store_ := midStore j, current_timestamp_ := j, curr_size_ := 0,
    replacer_size_ := n, k_ := k }

/-- The pool state after the first `j` `NewPage` calls on `mkBPM n k`. -/
def midBPM (n k j : Nat) : BufferPoolManager :=
  { pool_size_ := n, pages_ := midPages n j, page_table_ := midTable j,
    free_list_ := (List.range n).drop j, replacer_ := midReplacer n k j,
    next_page_id_ := Int.ofNat j, disk_ := [] }

theorem mkBPM_eq_midBPM (n k : Nat) : mkBPM n k = midBPM n k 0 := by
  simp [mkBPM, midBPM, mkLRUKReplacer, midPages, midTable, midStore,
    midReplacer, List.map_const']

theorem newPage_cons (b : BufferPoolManager) (f : Nat) (rest : List Nat)
    (hfl : b.free_list_ = f :: rest) :
    b.NewPage = newPageWithFrame { b with free_list_ := rest } f := by
  simp only [BufferPoolManager.NewPage, hfl]

theorem midStore_keys (j : Nat) : ∀ p ∈ midStore j, p.1 ≠ j := by
  intro p hp
  obtain ⟨i, hi, hpi⟩ := List.mem_map.mp hp
  subst hpi
  exact Nat.ne_of_lt (List.mem_range.mp hi)

theorem midStore_succ (j : Nat) :
    midStore j ++ [(j, { history_ := [j], is_evictable_ := false })] =
      midStore (j + 1) := by
  rw [midStore, midStore, List.range_succ, List.map_append]
  rfl

theorem midTable_succ (j : Nat) :
    mapSet (midTable j) (Int.ofNat j) j = midTable (j + 1) := by
  rw [mapSet_append_of_forall _ _ _ (by
    intro p hp
    obtain ⟨i, hi, hpi⟩ := List.mem_map.mp hp
    subst hpi
    have hij := List.mem_range.mp hi
    change Int.ofNat i ≠ Int.ofNat j
    simp only [Int.ofNat_eq_natCast]
    omega)]
  rw [midTable, midTable, List.range_succ, List.map_append]
  rfl

theorem midTable_erase (j : Nat) :
    mapErase (midTable j) INVALID_PAGE_ID = midTable j := by
  apply mapErase_of_forall
  intro p hp
  obtain ⟨i, hi, hpi⟩ := List.mem_map.mp hp
  subst hpi
  change Int.ofNat i ≠ INVALID_PAGE_ID
  simp only [INVALID_PAGE_ID, Int.ofNat_eq_natCast]
  omega

theorem midPages_get (n j : Nat) (hj : j < n) :
    (midPages n j)[j]? = some defaultPage := by
  simp [midPages, List.getElem?_map, List.getElem?_range, hj]

theorem midPages_succ (n j : Nat) :
    (midPages n j).set j
        { data_ := 0, page_id_ := Int.ofNat j, pin_count_ := 1,
          is_dirty_ := false } =
      midPages n (j + 1) := by
  rw [midPages, midPages]
  refine List.ext_getElem (by simp) ?_
  intro i h₁ h₂
  simp only [List.length_set, List.length_map, List.length_range] at h₁
  rw [List.getElem_set (by simpa using h₁)]
  by_cases hij : j = i
  · subst hij
    rw [if_pos rfl]
    simp [List.getElem_map, List.getElem_range, livePage]
  · rw [if_neg hij]
    simp only [List.getElem_map, List.getElem_range]
    by_cases hlt : i < j
    · rw [if_pos hlt, if_pos (by omega)]
    · rw [if_neg hlt, if_neg (by omega)]

theorem midReplacer_record (n k j : Nat) (hj : j < n) :
    (midReplacer n k j).RecordAccess j =
      some { node_store_ := midStore j ++
               [(j, { history_ := [j], is_evictable_ := false })],
             current_timestamp_ := j + 1, curr_size_ := 0,
             replacer_size_ := n, k_ := k } := by
  simp only [LRUKReplacer.RecordAccess, midReplacer,
    if_neg (by omega : ¬ n ≤ j),
    mapFind_eq_none_of_forall _ _ (midStore_keys j)]

theorem midReplacer_setEvictable (n k j : Nat) :
    LRUKReplacer.SetEvictable
      { node_store_ := midStore j ++
          [(j, { history_ := [j], is_evictable_ := false })],
        current_timestamp_ := j + 1, curr_size_ := 0, replacer_size_ := n,
        k_ := k } j false =
      some { node_store_ := midStore j ++
               [(j, { history_ := [j], is_evictable_ := false })],
             current_timestamp_ := j + 1, curr_size_ := 0,
             replacer_size_ := n, k_ := k } := by
  have hfound : mapFind (midStore j ++
      [(j, ({ history_ := [j], is_evictable_ := false } : LRUKNode))]) j =
      some { history_ := [j], is_evictable_ := false } := by
    rw [← mapSet_append_of_forall _ _ _ (midStore_keys j)]
    exact mapFind_set_self _ _ _
  simp only [LRUKReplacer.SetEvictable, hfound]
  simp

theorem midBPM_newPage (n k j : Nat) (hj : j < n) :
    (midBPM n k j).NewPage = some (midBPM n k (j + 1), some (Int.ofNat j)) := by
  have hfl : (midBPM n k j).free_list_ = j :: (List.range n).drop (j + 1) := by
    dsimp only [midBPM]
    rw [List.drop_eq_getElem_cons (by simpa using hj)]
    simp
  rw [newPage_cons _ j _ hfl]
  have hnext : (Int.ofNat j) + 1 = Int.ofNat (j + 1) :=
    (Int.ofNat_succ j).symm
  have midReplacer_fold :
      ({ node_store_ := midStore (j + 1), current_timestamp_ := j + 1,
         curr_size_ := 0, replacer_size_ := n, k_ := k } : LRUKReplacer) =
        midReplacer n k (j + 1) := rfl
  simp only [newPageWithFrame, midBPM, midPages_get n j hj, defaultPage,
    Bool.false_eq_true, if_false]
  have hsetev : (midReplacer n k (j + 1)).SetEvictable j false =
      some (midReplacer n k (j + 1)) := by
    have hfound : mapFind (midStore (j + 1)) j =
        some { history_ := [j], is_evictable_ := false } := by
      rw [← midStore_succ, ← mapSet_append_of_forall _ _ _ (midStore_keys j)]
      exact mapFind_set_self _ _ _
    simp only [LRUKReplacer.SetEvictable, midReplacer, hfound]
    simp
  simp only [midTable_erase, midReplacer_record n k j hj,
    midPages_succ, midTable_succ, midStore_succ,
    midReplacer_fold, hnext, hsetev]

theorem midBPM_newPage_full (n k : Nat) :
    (midBPM n k n).NewPage = some (midBPM n k n, none) := by
  have hfl : List.drop n (List.range n) = ([] : List Nat) := by
    apply List.drop_eq_nil_of_le
    simp
  have hevict : (midReplacer n k n).Evict = some none := rfl
  simp only [BufferPoolManager.NewPage, midBPM, hfl, hevict]

theorem runNewPages_mid (n k : Nat) : ∀ (m j : Nat), j + m = n →
    runNewPages (m + 1) (midBPM n k j) =
      some (midBPM n k n,
        ((List.range' j m).map fun i => some (Int.ofNat i)) ++ [none]) := by
  intro m
  induction m with
  | zero =>
    intro j hj
    have hjn : j = n := by omega
    subst hjn
    simp [runNewPages, midBPM_newPage_full j k]
  | succ m ih =>
    intro j hj
    have hjn : j < n := by omega
    have hrn : runNewPages (m + 1 + 1) (midBPM n k j) =
        (midBPM n k j).NewPage.bind fun pr =>
          (runNewPages (m + 1) pr.1).map fun pr' =>
            (pr'.1, pr.2 :: pr'.2) := rfl
    rw [hrn, midBPM_newPage n k j hjn]
    simp only [Option.some_bind]
    rw [ih (j + 1) (by omega)]
    simp [List.range'_succ]

/-- C7: on a freshly constructed pool of `n` frames, `n` consecutive
`NewPage` calls all succeed, writing out the fresh, strictly increasing and
never-reused page ids `0, 1, ..., n-1`, and the `(n+1)`-th call returns
null (writing nothing). -/
theorem newpage_sequence (n k : Nat) :
    runNewPages (n + 1) (mkBPM n k) =
      some (midBPM n k n,
        ((List.range n).map fun i => some (Int.ofNat i)) ++ [none]) ∧
    List.Pairwise (· < ·) ((List.range n).map Int.ofNat) := by
  constructor
  · rw [mkBPM_eq_midBPM]
    have hrun := runNewPages_mid n k n 0 (by omega)
    rw [hrun, List.range_eq_range']
  · refine List.Pairwise.map _ (fun a b hab => ?_) (List.pairwise_lt_range n)
    exact Int.ofNat_lt.mpr hab

end PlainFileRepo
